import Mathlib

/-!
# Date index and offset-range extraction (`src/extract_logs.cpp`)

A shallow embedding of `buildIndex`, `extractLogsForDate` and `main`.

* A file is the list of its bytes (`Bytes`); one `Char` stands for one byte.
* `std::ifstream` / `std::stringstream` are modelled by `IStream`: the data, the read
  position and the two state bits the program looks at (`eofbit`, `failbit`).
* The three `while` loops are written with a fuel argument; `none` means the fuel ran
  out.  Each caller passes more fuel than the loop can use, which is proved below
  (the `*_eq` lemmas give the value for every sufficient amount of fuel).
* Path arguments are replaced by the state of the file they name: `Option Bytes` for a
  file to read (`none`: it cannot be opened) and a `Bool` for a file to write.  The log
  file, the index file and the output file are taken to be three different files, and
  files are opened without newline translation (POSIX).
* `std::sort` is not stable.  `extractLogsForDateWith` takes the sort as an argument `stdSort`
  of which only the contract `IsSortByOffset` is known (a rearrangement with ascending
  offsets); the properties that depend on the order of rows with equal offsets are proved
  for every such `stdSort`.  `extractLogsForDate` is the instance with `sortByOffset`, which
  can be evaluated; it agrees with every other instance when the offsets are pairwise
  distinct (`stdSort_eq_sortByOffset`).
* `std::filesystem::create_directories("output")` is taken to succeed.
-/

namespace ExtractLogs

/-- File contents and `std::string` values: a list of bytes. -/
abbrev Bytes := List Char

/-- An input stream: the underlying data, the read position and the state bits. -/
structure IStream where
  data : Bytes
  pos : Nat
  eofbit : Bool
  failbit : Bool
deriving DecidableEq, Repr

/-- A freshly opened stream over `data`. -/
def openStream (data : Bytes) : IStream :=
  { data := data, pos := 0, eofbit := false, failbit := false }

/-- The call `std::getline(s, line, delim)`: when the stream is not good the sentry sets `failbit`
and nothing is read; otherwise bytes are extracted up to and including the first `delim`
(which is not stored).  Reaching the end of the data sets `eofbit`, and `failbit` too when
nothing at all was extracted. -/
def getlineDelim (s : IStream) (delim : Char) : IStream × Bytes :=
  if s.eofbit || s.failbit then ({ s with failbit := true }, [])
  else
    let line := (s.data.drop s.pos).takeWhile (fun c => c != delim)
    match (s.data.drop s.pos).dropWhile (fun c => c != delim) with
    | [] => ({ s with pos := s.pos + line.length, eofbit := true, failbit := line.isEmpty }, line)
    | _ :: _ => ({ s with pos := s.pos + line.length + 1 }, line)

/-- The call `std::getline(s, line)`: the delimiter is the newline byte. -/
def getline (s : IStream) : IStream × Bytes := getlineDelim s '\n'

/-- The call `s.tellg()`: the read position, or `-1` when the stream is not good.  (On a stream with
`eofbit` set the real call also sets `failbit`; the program never calls it in that state.) -/
def tellg (s : IStream) : Int :=
  if s.eofbit || s.failbit then -1 else (s.pos : Int)

/-- The call `s.seekg(off)` from the start of the file: a negative position fails (sets `failbit`),
a position past the end is accepted (later reads find the end of the file). -/
def seekg (s : IStream) (off : Int) : IStream :=
  if s.failbit then s
  else if off < 0 then { s with eofbit := false, failbit := true }
  else { s with pos := off.toNat, eofbit := false }

/-- One row of the index: `(date, offset)`; the offset is a `std::streampos`. -/
abbrev Entry := Bytes × Int

/-- Console output: `std::cout` is `info`, `std::cerr` is `error`.  File paths are left out of
the texts. -/
inductive Msg where
  | info (text : String)
  | error (text : String)
deriving DecidableEq, Repr

/-! ## `buildIndex` (lines 73-122) -/

/-- The loop of lines 94-116.  `acc` is the list of rows sent to the index file so far. -/
def buildIndexLoop : Nat → IStream → Bytes → List Entry → Option (List Entry)
  | 0, _, _, _ => none
  | fuel + 1, logFile, currentDate, acc =>
    if logFile.eofbit then some acc
    else
      let offset := tellg logFile
      let r := getline logFile
      if r.1.failbit then some acc
      else if 10 ≤ r.2.length then
        let datePart := r.2.take 10
        if datePart ≠ currentDate then
          buildIndexLoop fuel r.1 datePart (acc ++ [(datePart, offset)])
        else buildIndexLoop fuel r.1 currentDate acc
      else buildIndexLoop fuel r.1 currentDate acc

/-- The rows `buildIndex` emits for a log file that could be opened, in emission order. -/
def buildIndexEntries (log : Bytes) : Option (List Entry) :=
  buildIndexLoop (log.length + 1) (openStream log) [] []

/-- Decimal text of an integer, as `operator<<` prints a `std::streamoff`. -/
def showInt (n : Int) : Bytes :=
  if n < 0 then '-' :: Nat.toDigits 10 n.natAbs else Nat.toDigits 10 n.natAbs

/-- Line 113: `indexFile << currentDate << "," << offset << "\n"`. -/
def indexRow (e : Entry) : Bytes := e.1 ++ [','] ++ showInt e.2 ++ ['\n']

/-- The bytes of the index artifact holding the rows `es`. -/
def indexBytes (es : List Entry) : Bytes := (es.map indexRow).flatten

/-- What a call of `buildIndex` did. -/
structure BuildOutcome where
  messages : List Msg
  /-- Rows written to the index artifact; `none` when it was not opened for writing. -/
  index : Option (List Entry)
deriving DecidableEq, Repr

/-- The function `buildIndex(logFilePath, indexFilePath)`. -/
def buildIndex (logFile : Option Bytes) (indexWritable : Bool) : Option BuildOutcome :=
  match logFile with
  | none =>
    some { messages := [.info "[INFO] Building index", .error "[ERROR] Could not open log file"],
           index := none }
  | some log =>
    if !indexWritable then
      some { messages := [.info "[INFO] Building index",
                          .error "[ERROR] Could not open index file for writing"],
             index := none }
    else
      (buildIndexEntries log).map fun es =>
        { messages := [.info "[INFO] Building index", .info "[INFO] Index built successfully"],
          index := some es }

/-! ## `extractLogsForDate` (lines 124-233) -/

/-- The two exceptions `std::stoll` throws. -/
inductive StollError where
  | invalid_argument
  | out_of_range
deriving DecidableEq, Repr

/-- The white space `strtoll` skips (`isspace` in the C locale). -/
def isSpace (c : Char) : Bool :=
  c = ' ' || c = '\t' || c = '\n' || c = '\x0b' || c = '\x0c' || c = '\r'

/-- Value of a run of decimal digits. -/
def digitsValue (ds : Bytes) : Nat := ds.foldl (fun a c => 10 * a + (c.toNat - 48)) 0

/-- The call `std::stoll(s)`: skips leading white space, takes an optional sign and the longest run
of decimal digits, and ignores whatever follows.  No digit: `invalid_argument`; a value
outside 64-bit signed range: `out_of_range`. -/
def stoll (s : Bytes) : Except StollError Int :=
  let s1 := s.dropWhile isSpace
  let neg := s1.head? = some '-'
  let s2 := if s1.head? = some '-' ∨ s1.head? = some '+' then s1.tail else s1
  let ds := s2.takeWhile Char.isDigit
  if ds = [] then .error .invalid_argument
  else
    let v : Int := if neg then -(digitsValue ds : Int) else (digitsValue ds : Int)
    if v < -9223372036854775808 ∨ 9223372036854775807 < v then .error .out_of_range
    else .ok v

/-- Lines 142-148, the body of the loading loop for one line of the index file: `none` when
either inner `getline` fails (the line is skipped), an error when `stoll` throws. -/
def parseIndexLine (line : Bytes) : Except StollError (Option Entry) :=
  let r1 := getlineDelim (openStream line) ','
  if r1.1.failbit then .ok none
  else
    let r2 := getline r1.1
    if r2.1.failbit then .ok none
    else
      match stoll r2.2 with
      | .error e => .error e
      | .ok pos => .ok (some (r1.2, pos))

/-- The loop of lines 140-149 over the index file.  An exception of `stoll` leaves the loop
(and the function). -/
def loadIndexLoop : Nat → IStream → List Entry → Option (Except StollError (List Entry))
  | 0, _, _ => none
  | fuel + 1, idxFile, dateOffsets =>
    let r := getline idxFile
    if r.1.failbit then some (.ok dateOffsets)
    else
      match parseIndexLine r.2 with
      | .error e => some (.error e)
      | .ok none => loadIndexLoop fuel r.1 dateOffsets
      | .ok (some e) => loadIndexLoop fuel r.1 (dateOffsets ++ [e])

/-- Lines 130-150 for an index file that could be opened. -/
def loadIndex (index : Bytes) : Option (Except StollError (List Entry)) :=
  loadIndexLoop (index.length + 2) (openStream index) []

/-- The contract of `std::sort` with the comparison `a.second < b.second` (lines 153-156): the
result is a rearrangement of the rows in which offsets ascend.  The order it gives to rows of
equal offset is not determined by the contract (`std::sort` is not stable). -/
def IsSortByOffset (stdSort : List Entry → List Entry) : Prop :=
  ∀ l, (stdSort l).Perm l ∧ (stdSort l).Pairwise (fun a b => a.2 ≤ b.2)

/-- One sort that meets the contract `IsSortByOffset`: an insertion sort, which keeps rows of
equal offset in their order.  `std::sort` need not order such rows this way; on rows with
pairwise distinct offsets every sort that meets the contract gives this result. -/
def sortByOffset (es : List Entry) : List Entry :=
  es.insertionSort (fun a b => a.2 ≤ b.2)

/-- Lines 159-173: `(startOffset, endOffset)` for the first row whose date is `date`; `-1`
stands for "not set". -/
def findOffsets (date : Bytes) : List Entry → Int × Int
  | [] => (-1, -1)
  | e :: rest =>
    if e.1 = date then
      (e.2, match rest with
            | [] => -1
            | next :: _ => next.2)
    else findOffsets date rest

/-- The loop of lines 202-227.  `out` is the list of lines sent to the output file so far. -/
def extractLoop (date : Bytes) (endOffset : Int) : Nat → IStream → List Bytes → Option (List Bytes)
  | 0, _, _ => none
  | fuel + 1, logFile, out =>
    if logFile.eofbit then some out
    else if endOffset ≠ -1 ∧ tellg logFile ≥ endOffset then some out
    else
      let r := getline logFile
      if r.1.failbit then some out
      else if 10 ≤ r.2.length ∧ r.2.take 10 ≠ date then some out
      else extractLoop date endOffset fuel r.1 (out ++ [r.2])

/-- Lines 200-227: seek to `startOffset` and run the loop. -/
def extractLines (date : Bytes) (log : Bytes) (startOffset endOffset : Int) : Option (List Bytes) :=
  extractLoop date endOffset (log.length + 1) (seekg (openStream log) startOffset) []

/-- Line 226: `outFile << line << "\n"`, for every line written. -/
def outputBytes (lines : List Bytes) : Bytes := (lines.map (fun l => l ++ ['\n'])).flatten

/-- What a call of `extractLogsForDate` did. -/
structure ExtractOutcome where
  messages : List Msg
  /-- An exception left the function (nothing in the program catches it). -/
  threw : Option StollError
  /-- Whether `std::filesystem::create_directories("output")` was called. -/
  createdOutputDir : Bool
  /-- Whether a stream was constructed on the log file path. -/
  openedLog : Bool
  /-- Lines written to the output artifact; `none` when the artifact was not created. -/
  output : Option (List Bytes)
deriving DecidableEq, Repr

/-- The function `extractLogsForDate(date, logFilePath, indexFilePath)`, with the `std::sort` of
lines 153-156 as the argument `stdSort`.  The call of `create_directories` (line 182) is
taken to succeed. -/
def extractLogsForDateWith (stdSort : List Entry → List Entry) (date : Bytes)
    (logFile indexFile : Option Bytes) (outputWritable : Bool) : Option ExtractOutcome :=
  match indexFile with
  | none =>
    some { messages := [.info "[INFO] Extracting logs", .error "[ERROR] Could not open index file"],
           threw := none, createdOutputDir := false, openedLog := false, output := none }
  | some index =>
    match loadIndex index with
    | none => none
    | some (.error e) =>
      some { messages := [.info "[INFO] Extracting logs"],
             threw := some e, createdOutputDir := false, openedLog := false, output := none }
    | some (.ok loaded) =>
      let dateOffsets := stdSort loaded
      let startOffset := (findOffsets date dateOffsets).1
      let endOffset := (findOffsets date dateOffsets).2
      if startOffset = -1 then
        some { messages := [.info "[INFO] Extracting logs", .info "[INFO] No logs found for date"],
               threw := none, createdOutputDir := false, openedLog := false, output := none }
      else
        match logFile with
        | none =>
          some { messages := [.info "[INFO] Extracting logs",
                              .error "[ERROR] Failed to open log file again"],
                 threw := none, createdOutputDir := true, openedLog := true, output := none }
        | some log =>
          if !outputWritable then
            some { messages := [.info "[INFO] Extracting logs",
                                .error "[ERROR] Could not create output file"],
                   threw := none, createdOutputDir := true, openedLog := true, output := none }
          else
            (extractLines date log startOffset endOffset).map fun lines =>
              { messages := [.info "[INFO] Extracting logs", .info "[INFO] Logs written"],
                threw := none, createdOutputDir := true, openedLog := true, output := some lines }

/-- The function `extractLogsForDate(date, logFilePath, indexFilePath)` with `sortByOffset` for
the sort, so that it can be evaluated. -/
def extractLogsForDate (date : Bytes) (logFile indexFile : Option Bytes) (outputWritable : Bool) :
    Option ExtractOutcome :=
  extractLogsForDateWith sortByOffset date logFile indexFile outputWritable

/-! ## Vocabulary of the properties

Loop-free descriptions of a file as a sequence of lines, used to state and prove the
properties of the functions above. -/

/-- The lines of a file: the maximal runs of bytes other than the newline byte, each ended by a
newline byte or by the end of the file; nothing follows a final newline byte. -/
def fileLines : Bytes → List Bytes
  | [] => []
  | c :: cs =>
    if c = '\n' then [] :: fileLines cs
    else
      match fileLines cs with
      | [] => [[c]]
      | l :: ls => (c :: l) :: ls

/-- Each line paired with the byte position at which it begins, when the first one begins at
`pos`: a line of `n` bytes and its newline byte take `n + 1` bytes. -/
def withOffsets (pos : Nat) : List Bytes → List (Nat × Bytes)
  | [] => []
  | l :: ls => (pos, l) :: withOffsets (pos + l.length + 1) ls

/-- The lines of a log file with the byte positions at which they begin. -/
def linesWithOffsets (log : Bytes) : List (Nat × Bytes) := withOffsets 0 (fileLines log)

/-- The loop of `buildIndex` as a fold over the lines: a line of at least 10 bytes whose first
10 bytes differ from the date cursor `cur` gives a row and moves the cursor. -/
def indexOfLines (cur : Bytes) : List (Nat × Bytes) → List Entry
  | [] => []
  | q :: rest =>
    if 10 ≤ q.2.length ∧ q.2.take 10 ≠ cur then
      (q.2.take 10, (q.1 : Int)) :: indexOfLines (q.2.take 10) rest
    else indexOfLines cur rest

/-- The invariant of a stream that is being read line by line: it has not failed, the bytes
still to be read are `r`, `eofbit` is set only when nothing is left, and the read position
is `p` as long as something is left. -/
def Ready (s : IStream) (p : Nat) (r : Bytes) : Prop :=
  s.failbit = false ∧ s.data.drop s.pos = r ∧ (s.eofbit = true → r = []) ∧ (r ≠ [] → s.pos = p)


/-- The dates of a sequence of lines: the first 10 bytes of every line of at least 10 bytes,
in file order. -/
def datesOf (L : List (Nat × Bytes)) : List Bytes :=
  (L.filter (fun q => 10 ≤ q.2.length)).map (fun q => q.2.take 10)

/-- Dates are contiguous: no date reappears after a different date.  Once the run of `d` at the
head of the rest is dropped, `d` does not occur in it again. -/
def Contiguous : List Bytes → Prop
  | [] => True
  | d :: ds => d ∉ ds.dropWhile (fun x => decide (x = d)) ∧ Contiguous ds

/-- Deciding `Contiguous`. -/
instance decidableContiguous : (ds : List Bytes) → Decidable (Contiguous ds)
  | [] => isTrue trivial
  | _ :: ds => @instDecidableAnd _ _ inferInstance (decidableContiguous ds)

/-- One row per distinct date, in the order in which the dates first appear, each with the
offset of the first line that carries the date; `seen` holds the dates that already have a
row. -/
def firstOccurrences (seen : List Bytes) : List (Nat × Bytes) → List Entry
  | [] => []
  | q :: rest =>
    if 10 ≤ q.2.length ∧ q.2.take 10 ∉ seen then
      (q.2.take 10, (q.1 : Int)) :: firstOccurrences (q.2.take 10 :: seen) rest
    else firstOccurrences seen rest

/-- The loop of `extractLogsForDate` as a fold over the lines still to be read, each with the
position at which it begins: stop at a line that begins at or past a set `endOffset`, stop at
a line of at least 10 bytes whose first 10 bytes are not `date`, write any other line. -/
def scanLines (date : Bytes) (endOffset : Int) : List (Nat × Bytes) → List Bytes
  | [] => []
  | q :: rest =>
    if endOffset ≠ -1 ∧ endOffset ≤ (q.1 : Int) then []
    else if 10 ≤ q.2.length ∧ q.2.take 10 ≠ date then []
    else q.2 :: scanLines date endOffset rest

/-- The loading loop as a fold over the lines of the index file. -/
def loadLines : List Bytes → List Entry → Except StollError (List Entry)
  | [], acc => .ok acc
  | l :: ls, acc =>
    match parseIndexLine l with
    | .error e => .error e
    | .ok none => loadLines ls acc
    | .ok (some e) => loadLines ls (acc ++ [e])

/-! ## `main` (lines 26-71) -/

/-- The files `main` can reach: what a path gives when opened for reading (`none`: it cannot
be opened) and whether a path can be opened for writing. -/
structure FileSystem where
  readable : String → Option Bytes
  writable : String → Bool

/-- The function `main` called, with the arguments it passed and what the call did. -/
inductive Call where
  | none
  | buildIndex (logFilePath indexFilePath : String) (o : BuildOutcome)
  | extractLogsForDate (date logFilePath indexFilePath : String) (o : ExtractOutcome)
deriving DecidableEq, Repr

/-- What a run of the program did. -/
structure MainOutcome where
  /-- The value `main` returned; `none` when an uncaught exception ended the process. -/
  exit : Option Nat
  /-- Usage messages written by `main` itself to `std::cerr`. -/
  usage : List Msg
  call : Call
deriving DecidableEq, Repr

/-- The exit code `EXIT_SUCCESS` of `<cstdlib>`. -/
def EXIT_SUCCESS : Nat := 0

/-- The exit code `EXIT_FAILURE` of `<cstdlib>`. -/
def EXIT_FAILURE : Nat := 1

/-- The function `main(argc, argv)`; `argv` includes the program name. -/
def main (fs : FileSystem) (argv : List String) : Option MainOutcome :=
  if argv.length < 2 then
    some { exit := some EXIT_FAILURE,
           usage := [.error "No arguments provided. Use --build-index or --date."],
           call := .none }
  else
    let command := argv.getD 1 ""
    if command = "--build-index" then
      if argv.length < 4 then
        some { exit := some EXIT_FAILURE,
               usage := [.error "Usage: ./extract_logs --build-index <logFile> <indexFile>"],
               call := .none }
      else
        let logFilePath := argv.getD 2 ""
        let indexFilePath := argv.getD 3 ""
        (buildIndex (fs.readable logFilePath) (fs.writable indexFilePath)).map fun o =>
          { exit := some EXIT_SUCCESS, usage := [],
            call := .buildIndex logFilePath indexFilePath o }
    else if command = "--date" then
      if argv.length < 5 then
        some { exit := some EXIT_FAILURE,
               usage := [.error "Usage: ./extract_logs --date <YYYY-MM-DD> <logFile> <indexFile>"],
               call := .none }
      else
        let date := argv.getD 2 ""
        let logFilePath := argv.getD 3 ""
        let indexFilePath := argv.getD 4 ""
        (extractLogsForDate date.toList (fs.readable logFilePath) (fs.readable indexFilePath)
            (fs.writable ("output/output_" ++ date ++ ".txt"))).map fun o =>
          { exit := if o.threw.isSome then none else some EXIT_SUCCESS, usage := [],
            call := .extractLogsForDate date logFilePath indexFilePath o }
    else
      some { exit := some EXIT_FAILURE,
             usage := [.error "Invalid command. Use --build-index or --date."],
             call := .none }

/-- A date in the form `YYYY-MM-DD`: ten bytes, decimal digits but for the two hyphens. -/
def isDate : Bytes → Bool
  | [y1, y2, y3, y4, h1, m1, m2, h2, d1, d2] =>
    y1.isDigit && y2.isDigit && y3.isDigit && y4.isDigit && h1 == '-' &&
    m1.isDigit && m2.isDigit && h2 == '-' && d1.isDigit && d2.isDigit
  | _ => false

/-- The text of an index row without its newline byte. -/
def rowText (e : Entry) : Bytes := e.1 ++ ',' :: showInt e.2

/-- The offset of the first row, `-1` when there is none. -/
def nextOffset : List Entry → Int
  | [] => -1
  | e :: _ => e.2

/-- Each row with its own offset and the offset of the row after it (`-1` for the last row). -/
def ranges : List Entry → List (Bytes × Int × Int)
  | [] => []
  | e :: rest => (e.1, e.2, nextOffset rest) :: ranges rest

/-- The rows of an index file: what the loader reads from the lines from which it reads a
row, in file order. -/
def rowsOf (lines : List Bytes) : List Entry :=
  lines.filterMap fun l =>
    match parseIndexLine l with
    | .ok (some e) => some e
    | _ => none

/-- The file that holds the lines `ls`, each followed by a newline byte. -/
def fileOfLines (ls : List Bytes) : Bytes := (ls.map (fun l => l ++ ['\n'])).flatten

/-- The date cursor of `buildIndex` after it has read the lines `L`, when it was `cur` before
them. -/
def cursorAfter (cur : Bytes) : List (Nat × Bytes) → Bytes
  | [] => cur
  | q :: rest =>
    if 10 ≤ q.2.length ∧ q.2.take 10 ≠ cur then cursorAfter (q.2.take 10) rest
    else cursorAfter cur rest

/-! ## Streams and lines -/

theorem fileLines_eq (c : Char) (cs : Bytes) :
    fileLines (c :: cs) = (c :: cs).takeWhile (fun x => x != '\n')
      :: fileLines ((c :: cs).dropWhile (fun x => x != '\n')).tail := by
  induction cs generalizing c with
  | nil =>
    by_cases h : c = '\n'
    · simp [fileLines, h]
    · have h' : (c != '\n') = true := by simpa using h
      simp [fileLines, h, List.takeWhile, List.dropWhile, h']
  | cons d ds ih =>
    by_cases h : c = '\n'
    · subst h; simp [fileLines, List.takeWhile, List.dropWhile]
    · have h2 := ih d
      rw [fileLines, if_neg h, h2]
      simp [List.takeWhile_cons, List.dropWhile_cons, h]

theorem fileLines_of_ne_nil {r : Bytes} (hr : r ≠ []) :
    fileLines r = r.takeWhile (fun x => x != '\n')
      :: fileLines (r.dropWhile (fun x => x != '\n')).tail := by
  cases r with
  | nil => exact absurd rfl hr
  | cons c cs => exact fileLines_eq c cs

theorem drop_takeWhile_length (p : Char → Bool) (r : Bytes) :
    r.drop (r.takeWhile p).length = r.dropWhile p := by
  induction r with
  | nil => rfl
  | cons c cs ih =>
    by_cases h : p c
    · simp [List.takeWhile_cons, List.dropWhile_cons, h, ih]
    · simp [List.takeWhile_cons, List.dropWhile_cons, h]

theorem tail_dropWhile_length_lt (p : Char → Bool) {r : Bytes} (hr : r ≠ []) :
    (r.dropWhile p).tail.length < r.length := by
  have h1 : (r.dropWhile p).length ≤ r.length := by
    have := congrArg List.length (List.takeWhile_append_dropWhile p r)
    rw [List.length_append] at this; omega
  have h2 : 0 < r.length := List.length_pos.mpr hr
  cases h : r.dropWhile p with
  | nil => simpa using h2
  | cons a t => rw [h] at h1; simp only [List.length_cons, List.tail_cons] at h1 ⊢; omega

theorem getline_of_nil {s : IStream} {p : Nat} (h : Ready s p []) :
    (getline s).1.failbit = true := by
  obtain ⟨hf, hd, _, _⟩ := h
  unfold getline getlineDelim
  by_cases he : s.eofbit = true
  · simp [he]
  · simp [he, hf, hd]

theorem getline_of_ne_nil {s : IStream} {p : Nat} {r : Bytes} (h : Ready s p r) (hr : r ≠ []) :
    (getline s).2 = r.takeWhile (fun x => x != '\n') ∧ (getline s).1.failbit = false ∧
    (getline s).1.data = s.data ∧
    Ready (getline s).1 (p + (r.takeWhile (fun x => x != '\n')).length + 1)
      (r.dropWhile (fun x => x != '\n')).tail := by
  obtain ⟨hf, hd, he, hp⟩ := h
  have he' : s.eofbit = false := by
    cases h : s.eofbit with
    | false => rfl
    | true => exact absurd (he h) hr
  have hp' := hp hr
  unfold getline getlineDelim
  simp only [he', hf, hd, Bool.or_self, Bool.false_eq_true, if_false]
  cases hdw : r.dropWhile (fun x => x != '\n') with
  | nil =>
    have htw : r.takeWhile (fun x => x != '\n') = r := by
      have := List.takeWhile_append_dropWhile (fun x => x != '\n') r
      rw [hdw] at this; simpa using this
    simp [Ready, htw, hr, ← List.drop_drop, hd]
  | cons c t =>
    have hdrop := drop_takeWhile_length (fun x => x != '\n') r
    rw [hdw] at hdrop
    refine ⟨rfl, rfl, rfl, rfl, ?_, ?_, ?_⟩
    · show List.drop (s.pos + (List.takeWhile (fun x => x != '\n') r).length + 1) s.data = t
      rw [Nat.add_assoc, ← List.drop_drop, hd, ← List.drop_drop, hdrop]; rfl
    · intro h; exact absurd h (by simp)
    · intro _; show s.pos + _ + 1 = _; rw [hp']

theorem tellg_of_ne_nil {s : IStream} {p : Nat} {r : Bytes} (h : Ready s p r) (hr : r ≠ []) :
    tellg s = (p : Int) := by
  obtain ⟨hf, _, he, hp⟩ := h
  have he' : s.eofbit = false := by
    cases h : s.eofbit with
    | false => rfl
    | true => exact absurd (he h) hr
  simp [tellg, he', hf, hp hr]

theorem ready_openStream (data : Bytes) : Ready (openStream data) 0 data := by
  simp [Ready, openStream]

theorem buildIndexLoop_eq (fuel : Nat) : ∀ (s : IStream) (p : Nat) (r cur : Bytes) (acc : List Entry),
    Ready s p r → r.length < fuel →
    buildIndexLoop fuel s cur acc = some (acc ++ indexOfLines cur (withOffsets p (fileLines r))) := by
  induction fuel with
  | zero => intro s p r cur acc _ h; exact absurd h (Nat.not_lt_zero _)
  | succ fuel ih =>
    intro s p r cur acc hs hfuel
    by_cases hr : r = []
    · subst hr
      have hg := getline_of_nil hs
      unfold buildIndexLoop
      by_cases he : s.eofbit = true
      · simp [he, fileLines, withOffsets, indexOfLines]
      · simp [he, hg, fileLines, withOffsets, indexOfLines]
    · obtain ⟨hline, hfail, _, hready⟩ := getline_of_ne_nil hs hr
      have htell := tellg_of_ne_nil hs hr
      have he : s.eofbit = false := by
        cases h : s.eofbit with
        | false => rfl
        | true => exact absurd (hs.2.2.1 h) hr
      have hlen := tail_dropWhile_length_lt (fun x => x != '\n') hr
      have hfuel' : (r.dropWhile (fun x => x != '\n')).tail.length < fuel := by omega
      unfold buildIndexLoop
      rw [fileLines_of_ne_nil hr]
      simp only [he, Bool.false_eq_true, if_false, hfail, htell, withOffsets, indexOfLines, hline]
      by_cases h10 : 10 ≤ (r.takeWhile (fun x => x != '\n')).length
      · by_cases hd : List.take 10 (r.takeWhile (fun x => x != '\n')) = cur
        · simp only [h10, hd, if_true, not_true_eq_false, ne_eq, and_false, if_false]
          rw [← hd]
          exact ih _ _ _ _ _ hready hfuel'
        · simp only [h10, hd, if_true, not_false_eq_true, ne_eq, and_self]
          rw [ih _ _ _ _ _ hready hfuel']
          simp
      · simp only [h10, if_false, false_and]
        exact ih _ _ _ _ _ hready hfuel'

theorem buildIndexEntries_eq (log : Bytes) :
    buildIndexEntries log = some (indexOfLines [] (linesWithOffsets log)) := by
  have := buildIndexLoop_eq (log.length + 1) (openStream log) 0 log [] [] (ready_openStream log)
    (Nat.lt_succ_self _)
  simpa [buildIndexEntries, linesWithOffsets] using this

theorem fileLines_ne_nil_of {r : Bytes} (h : fileLines r ≠ []) : r ≠ [] := by
  rintro rfl; exact h rfl

/-- Where a line of the file begins: the bytes from there on are the line and the lines after
it, and the byte just before (if any) is a newline byte. -/
theorem withOffsets_split : ∀ (L1 : List (Nat × Bytes)) (r : Bytes) (p : Nat) (q : Nat × Bytes)
    (L2 : List (Nat × Bytes)), withOffsets p (fileLines r) = L1 ++ q :: L2 →
    p ≤ q.1 ∧ withOffsets q.1 (fileLines (r.drop (q.1 - p))) = q :: L2 ∧
    (q.1 = p ∨ (p < q.1 ∧ r[q.1 - p - 1]? = some '\n')) := by
  intro L1
  induction L1 with
  | nil =>
    intro r p q L2 h
    cases hl : fileLines r with
    | nil => rw [hl] at h; simp [withOffsets] at h
    | cons l ls =>
      rw [hl] at h
      simp only [withOffsets, List.nil_append, List.cons.injEq] at h
      obtain ⟨hq, hL2⟩ := h
      subst hq
      simp [hl, withOffsets, hL2]
  | cons q1 L1 ih =>
    intro r p q L2 h
    obtain ⟨o, l⟩ := q
    have hr : r ≠ [] := by
      rintro rfl; simp [fileLines, withOffsets] at h
    rw [fileLines_of_ne_nil hr] at h
    simp only [withOffsets, List.cons_append, List.cons.injEq] at h
    obtain ⟨_, h⟩ := h
    have hdrop := drop_takeWhile_length (fun x => x != '\n') r
    cases hdw : r.dropWhile (fun x => x != '\n') with
    | nil => rw [hdw] at h; simp [fileLines, withOffsets] at h
    | cons c t =>
      rw [hdw] at h hdrop
      simp only [List.tail_cons] at h
      have hc : c = '\n' := by
        have := List.head_dropWhile_not (fun x => x != '\n') r (by rw [hdw]; simp)
        simpa [hdw] using this
      have ht : t = r.drop ((r.takeWhile (fun x => x != '\n')).length + 1) := by
        rw [← List.drop_drop, hdrop]; rfl
      obtain ⟨h1, h2, h3⟩ := ih t _ (o, l) L2 h
      simp only at h1 h2 h3 ⊢
      have hget : r[(r.takeWhile (fun x => x != '\n')).length]? = some '\n' := by
        rw [← List.head?_drop, hdrop, hc]; rfl
      have hpo : p + (r.takeWhile (fun x => x != '\n')).length + 1 ≤ o := h1
      have hp1 : p ≤ o := by omega
      have hp2 : p < o := by omega
      refine ⟨hp1, ?_, Or.inr ⟨hp2, ?_⟩⟩
      · rw [← h2, ht, List.drop_drop]
        have e : (r.takeWhile (fun x => x != '\n')).length + 1
            + (o - (p + (r.takeWhile (fun x => x != '\n')).length + 1)) = o - p := by omega
        rw [e]
      · rcases h3 with h3 | ⟨h3, h4⟩
        · have e : o - p - 1 = (r.takeWhile (fun x => x != '\n')).length := by omega
          rw [e, hget]
        · rw [ht, List.getElem?_drop] at h4
          have e : o - p - 1 = (r.takeWhile (fun x => x != '\n')).length + 1
              + (o - (p + (r.takeWhile (fun x => x != '\n')).length + 1) - 1) := by omega
          rw [e, h4]

/-! ## The index as a fold over the lines -/

theorem buildIndex_eq (log : Bytes) :
    buildIndex (some log) true =
      some { messages := [.info "[INFO] Building index", .info "[INFO] Index built successfully"],
             index := some (indexOfLines [] (linesWithOffsets log)) } := by
  simp [buildIndex, buildIndexEntries_eq]

theorem withOffsets_fst_ge : ∀ (ls : List Bytes) (p : Nat) (q : Nat × Bytes),
    q ∈ withOffsets p ls → p ≤ q.1 := by
  intro ls
  induction ls with
  | nil => intro p q h; simp [withOffsets] at h
  | cons l ls ih =>
    intro p q h
    simp only [withOffsets, List.mem_cons] at h
    rcases h with h | h
    · subst h; exact Nat.le_refl _
    · have := ih _ _ h
      omega

theorem withOffsets_pairwise : ∀ (ls : List Bytes) (p : Nat),
    (withOffsets p ls).Pairwise (fun a b => a.1 < b.1) := by
  intro ls
  induction ls with
  | nil => intro p; simp [withOffsets]
  | cons l ls ih =>
    intro p
    simp only [withOffsets, List.pairwise_cons]
    refine ⟨fun q hq => ?_, ih _⟩
    have := withOffsets_fst_ge _ _ _ hq
    show p < q.1
    omega

theorem indexOfLines_sublist : ∀ (L : List (Nat × Bytes)) (cur : Bytes),
    List.Sublist (indexOfLines cur L) (L.map (fun q => (q.2.take 10, (q.1 : Int)))) := by
  intro L
  induction L with
  | nil => intro cur; simp [indexOfLines]
  | cons q rest ih =>
    intro cur
    simp only [indexOfLines, List.map_cons]
    split
    · exact (ih _).cons₂ _
    · exact (ih _).cons _

theorem indexOfLines_pairwise (cur : Bytes) (p : Nat) (ls : List Bytes) :
    (indexOfLines cur (withOffsets p ls)).Pairwise (fun a b => a.2 < b.2) := by
  have h1 := withOffsets_pairwise ls p
  have h2 : ((withOffsets p ls).map (fun q => (q.2.take 10, (q.1 : Int)))).Pairwise
      (fun a b => a.2 < b.2) := by
    rw [List.pairwise_map]
    exact h1.imp (fun h => Int.ofNat_lt.mpr h)
  exact h2.sublist (indexOfLines_sublist _ _)

/-- Every row comes from a line of at least 10 bytes; the line just before it does not carry
the row's date, and when there is no line before it the row's date is not the cursor. -/
theorem indexOfLines_mem : ∀ (L : List (Nat × Bytes)) (cur : Bytes) (e : Entry),
    e ∈ indexOfLines cur L → ∃ pre q post, L = pre ++ q :: post ∧
      e = (q.2.take 10, (q.1 : Int)) ∧ 10 ≤ q.2.length ∧
      (pre = [] → e.1 ≠ cur) ∧ ∀ x ∈ pre.getLast?, x.2.take 10 ≠ e.1 := by
  intro L
  induction L with
  | nil => intro cur e h; simp [indexOfLines] at h
  | cons q0 rest ih =>
    intro cur e h
    simp only [indexOfLines] at h
    split at h
    · rename_i hc
      rcases List.mem_cons.mp h with h | h
      · exact ⟨[], q0, rest, rfl, h, hc.1, fun _ => by rw [h]; exact hc.2, by simp⟩
      · obtain ⟨pre, q, post, hL, he, h10, hcur, hprev⟩ := ih _ _ h
        refine ⟨q0 :: pre, q, post, by rw [hL]; rfl, he, h10, by simp, ?_⟩
        intro x hx
        cases pre with
        | nil =>
          simp only [List.getLast?_singleton, Option.mem_def, Option.some.injEq] at hx
          subst hx
          exact fun heq => hcur rfl heq.symm
        | cons a t =>
          rw [List.getLast?_cons_cons] at hx
          exact hprev x hx
    · rename_i hc
      obtain ⟨pre, q, post, hL, he, h10, hcur, hprev⟩ := ih _ _ h
      refine ⟨q0 :: pre, q, post, by rw [hL]; rfl, he, h10, by simp, ?_⟩
      intro x hx
      cases pre with
      | nil =>
        simp only [List.getLast?_singleton, Option.mem_def, Option.some.injEq] at hx
        subst hx
        intro heq
        have hlen : e.1.length = 10 := by
          rw [he]; simp [List.length_take]; omega
        by_cases h10' : 10 ≤ q0.2.length
        · have : q0.2.take 10 = cur := by
            by_contra hne; exact hc ⟨h10', hne⟩
          exact hcur rfl (by rw [← heq, this])
        · have := congrArg List.length heq
          rw [hlen, List.length_take] at this
          omega
      | cons a t =>
        rw [List.getLast?_cons_cons] at hx
        exact hprev x hx

theorem sortByOffset_eq_self {es : List Entry} (h : es.Pairwise (fun a b => a.2 < b.2)) :
    sortByOffset es = es := by
  unfold sortByOffset
  apply List.Sorted.insertionSort_eq
  exact h.imp (fun hab => le_of_lt hab)

/-- Claim C3 (offset correctness).  For every log file, every row `(d, o)` that `buildIndex` emits
is such that `o` is the byte position at which a line `l` of the log begins (the bytes from
`o` up to the next newline byte are `l`, and `o` is `0` or one past a newline byte), `l` has at
least 10 bytes, its first 10 bytes are `d`, and the line immediately before `l`, if there is
one, does not have `d` as its first 10 bytes. -/
theorem buildIndex_offset_correct (log : Bytes) :
    ∃ msgs es, buildIndex (some log) true = some { messages := msgs, index := some es } ∧
      ∀ e ∈ es, ∃ pre l post,
        linesWithOffsets log = pre ++ (e.2.toNat, l) :: post ∧ 0 ≤ e.2 ∧
        (log.drop e.2.toNat).takeWhile (fun c => c != '\n') = l ∧
        (e.2 = 0 ∨ log[e.2.toNat - 1]? = some '\n') ∧
        10 ≤ l.length ∧ l.take 10 = e.1 ∧
        ∀ x ∈ pre.getLast?, x.2.take 10 ≠ e.1 := by
  refine ⟨_, _, buildIndex_eq log, ?_⟩
  intro e he
  obtain ⟨pre, q, post, hL, heq, h10, _, hprev⟩ := indexOfLines_mem _ _ _ he
  obtain ⟨o, l⟩ := q
  subst heq
  obtain ⟨_, h2, h3⟩ := withOffsets_split pre log 0 (o, l) post hL
  simp only [Nat.sub_zero] at h2 h3
  have hne : log.drop o ≠ [] := by
    intro h0; rw [h0] at h2; simp [fileLines, withOffsets] at h2
  rw [fileLines_of_ne_nil hne] at h2
  simp only [withOffsets, List.cons.injEq, Prod.mk.injEq, true_and] at h2
  refine ⟨pre, l, post, by simpa using hL, by simp, by simpa using h2.1, ?_, h10, rfl, hprev⟩
  rcases h3 with h3 | ⟨_, h3⟩
  · left; simp [h3]
  · right; simpa using h3

/-- Claim C4 (index invariant).  For every log file, the offsets of the rows `buildIndex` emits are
strictly increasing in emission order, so sorting the rows by offset leaves them as they are,
and every offset is the start of a line of the log: it lies inside the file and is `0` or one
past a newline byte. -/
theorem buildIndex_offsets_increasing (log : Bytes) :
    ∃ msgs es, buildIndex (some log) true = some { messages := msgs, index := some es } ∧
      (es.map (fun e => e.2)).Pairwise (fun a b => a < b) ∧
      sortByOffset es = es ∧
      ∀ e ∈ es, 0 ≤ e.2 ∧ e.2.toNat < log.length ∧
        e.2.toNat ∈ (linesWithOffsets log).map (fun q => q.1) ∧
        (e.2 = 0 ∨ log[e.2.toNat - 1]? = some '\n') := by
  refine ⟨_, _, buildIndex_eq log, ?_, ?_, ?_⟩
  · rw [List.pairwise_map]
    exact indexOfLines_pairwise [] 0 (fileLines log)
  · exact sortByOffset_eq_self (indexOfLines_pairwise [] 0 (fileLines log))
  · intro e he
    obtain ⟨pre, q, post, hL, heq, _, _, _⟩ := indexOfLines_mem _ _ _ he
    obtain ⟨o, l⟩ := q
    subst heq
    obtain ⟨_, h2, h3⟩ := withOffsets_split pre log 0 (o, l) post hL
    simp only [Nat.sub_zero] at h2 h3
    have hne : log.drop o ≠ [] := by
      intro h0; rw [h0] at h2; simp [fileLines, withOffsets] at h2
    refine ⟨by simp, ?_, ?_, ?_⟩
    · have : o < log.length := by
        by_contra hge
        exact hne (List.drop_eq_nil_of_le (by omega))
      simpa using this
    · rw [hL]; simp
    · rcases h3 with h3 | ⟨_, h3⟩
      · left; simp [h3]
      · right; simpa using h3

/-! ## Contiguous dates -/

theorem datesOf_cons_short {q : Nat × Bytes} {rest : List (Nat × Bytes)} (h : ¬ 10 ≤ q.2.length) :
    datesOf (q :: rest) = datesOf rest := by
  simp [datesOf, List.filter_cons, h]

theorem datesOf_cons_dated {q : Nat × Bytes} {rest : List (Nat × Bytes)} (h : 10 ≤ q.2.length) :
    datesOf (q :: rest) = q.2.take 10 :: datesOf rest := by
  simp [datesOf, List.filter_cons, h]

theorem length_of_mem_datesOf {L : List (Nat × Bytes)} {d : Bytes} (h : d ∈ datesOf L) :
    d.length = 10 := by
  simp only [datesOf, List.mem_map, List.mem_filter, decide_eq_true_eq] at h
  obtain ⟨q, ⟨_, h10⟩, rfl⟩ := h
  rw [List.length_take]; omega

theorem indexOfLines_eq_firstOccurrences : ∀ (L : List (Nat × Bytes)) (cur : Bytes)
    (seen : List Bytes), Contiguous (datesOf L) →
    cur ∉ (datesOf L).dropWhile (fun x => decide (x = cur)) →
    (∀ d ∈ seen, d ≠ cur → d ∉ datesOf L) → (cur ∈ seen ∨ cur.length ≠ 10) →
    indexOfLines cur L = firstOccurrences seen L := by
  intro L
  induction L with
  | nil => intro cur seen _ _ _ _; rfl
  | cons q rest ih =>
    intro cur seen hc hcur hseen hin
    by_cases h10 : 10 ≤ q.2.length
    · rw [datesOf_cons_dated h10] at hc hcur hseen
      obtain ⟨hc1, hc2⟩ := hc
      by_cases hd : q.2.take 10 = cur
      · have hmem : q.2.take 10 ∈ seen := by
          rcases hin with hin | hin
          · rw [hd]; exact hin
          · exfalso; apply hin; rw [← hd, List.length_take]; omega
        have hmem' : cur ∈ seen := hd ▸ hmem
        simp only [indexOfLines, firstOccurrences, h10, hd, hmem', ne_eq, not_true_eq_false,
          and_false, if_false]
        apply ih cur seen hc2
        · simpa [List.dropWhile_cons, hd] using hcur
        · intro d hds hne hmem'
          exact hseen d hds hne (List.mem_cons_of_mem _ hmem')
        · exact hin
      · have hnot : q.2.take 10 ∉ seen := by
          intro hmem
          exact hseen _ hmem hd (List.mem_cons_self _ _)
        simp only [indexOfLines, firstOccurrences, h10, hd, hnot, ne_eq, not_false_eq_true,
          and_self, if_true]
        congr 1
        apply ih _ _ hc2 hc1
        · intro d hds hne hmem'
          rcases List.mem_cons.mp hds with h | h
          · exact hne h
          · by_cases hdc : d = cur
            · subst hdc
              apply hcur
              simp only [List.dropWhile_cons, hd, decide_False]
              exact List.mem_cons_of_mem _ hmem'
            · exact hseen d h hdc (List.mem_cons_of_mem _ hmem')
        · exact Or.inl (List.mem_cons_self _ _)
    · rw [datesOf_cons_short h10] at hc hcur hseen
      simp only [indexOfLines, firstOccurrences, h10, false_and, if_false]
      exact ih cur seen hc hcur hseen hin

theorem firstOccurrences_mem : ∀ (L : List (Nat × Bytes)) (seen : List Bytes) (e : Entry),
    e ∈ firstOccurrences seen L → ∃ pre q post, L = pre ++ q :: post ∧
      e = (q.2.take 10, (q.1 : Int)) ∧ 10 ≤ q.2.length ∧ e.1 ∉ seen ∧ e.1 ∉ datesOf pre := by
  intro L
  induction L with
  | nil => intro seen e h; simp [firstOccurrences] at h
  | cons q0 rest ih =>
    intro seen e h
    simp only [firstOccurrences] at h
    split at h
    · rename_i hc
      rcases List.mem_cons.mp h with h | h
      · exact ⟨[], q0, rest, rfl, h, hc.1, by rw [h]; exact hc.2, by simp [datesOf]⟩
      · obtain ⟨pre, q, post, hL, he, h10, hseen, hpre⟩ := ih _ _ h
        refine ⟨q0 :: pre, q, post, by rw [hL]; rfl, he, h10, ?_, ?_⟩
        · exact fun hm => hseen (List.mem_cons_of_mem _ hm)
        · rw [datesOf_cons_dated hc.1]
          intro hm
          rcases List.mem_cons.mp hm with hm | hm
          · exact hseen (hm ▸ List.mem_cons_self _ _)
          · exact hpre hm
    · rename_i hc
      obtain ⟨pre, q, post, hL, he, h10, hseen, hpre⟩ := ih _ _ h
      refine ⟨q0 :: pre, q, post, by rw [hL]; rfl, he, h10, hseen, ?_⟩
      by_cases h10' : 10 ≤ q0.2.length
      · rw [datesOf_cons_dated h10']
        have hin : q0.2.take 10 ∈ seen := by
          by_contra hne; exact hc ⟨h10', hne⟩
        intro hm
        rcases List.mem_cons.mp hm with hm | hm
        · exact hseen (hm ▸ hin)
        · exact hpre hm
      · rw [datesOf_cons_short h10']; exact hpre

theorem firstOccurrences_nodup : ∀ (L : List (Nat × Bytes)) (seen : List Bytes),
    ((firstOccurrences seen L).map (fun e => e.1)).Nodup := by
  intro L
  induction L with
  | nil => intro seen; simp [firstOccurrences]
  | cons q0 rest ih =>
    intro seen
    simp only [firstOccurrences]
    split
    · simp only [List.map_cons, List.nodup_cons]
      refine ⟨?_, ih _⟩
      intro hm
      obtain ⟨e, he, heq⟩ := List.mem_map.mp hm
      obtain ⟨_, _, _, _, _, _, hseen, _⟩ := firstOccurrences_mem _ _ _ he
      exact hseen (heq ▸ List.mem_cons_self _ _)
    · exact ih _

theorem mem_firstOccurrences_iff : ∀ (L : List (Nat × Bytes)) (seen : List Bytes) (d : Bytes),
    d ∈ (firstOccurrences seen L).map (fun e => e.1) ↔ d ∈ datesOf L ∧ d ∉ seen := by
  intro L
  induction L with
  | nil => intro seen d; simp [firstOccurrences, datesOf]
  | cons q0 rest ih =>
    intro seen d
    simp only [firstOccurrences]
    by_cases h10 : 10 ≤ q0.2.length
    · rw [datesOf_cons_dated h10]
      by_cases hin : q0.2.take 10 ∈ seen
      · simp only [h10, hin, not_true_eq_false, and_false, if_false, ih, List.mem_cons]
        constructor
        · rintro ⟨h1, h2⟩; exact ⟨Or.inr h1, h2⟩
        · rintro ⟨h1 | h1, h2⟩
          · exact absurd (h1 ▸ hin) h2
          · exact ⟨h1, h2⟩
      · simp only [h10, hin, not_false_eq_true, and_self, if_true, List.map_cons, List.mem_cons, ih]
        constructor
        · rintro (h1 | ⟨h1, h2⟩)
          · exact ⟨Or.inl h1, h1 ▸ hin⟩
          · exact ⟨Or.inr h1, fun hm => h2 (Or.inr hm)⟩
        · rintro ⟨h1 | h1, h2⟩
          · exact Or.inl h1
          · by_cases hd : d = q0.2.take 10
            · exact Or.inl hd
            · exact Or.inr ⟨h1, fun hm => hm.elim hd h2⟩
    · rw [datesOf_cons_short h10]
      simp only [h10, false_and, if_false, ih]

/-- Claim C5 (one row per date).  For every log file whose dates are contiguous, the rows
`buildIndex` emits are those of `firstOccurrences`: no two rows have the same date, the dates
of the rows are exactly the dates of the log (first 10 bytes of the lines of at least 10
bytes), every row `(d, o)` has for `o` the position of the first line that carries `d`, and
when the first line of the log has at least 10 bytes the first row is that line's date with
offset `0`. -/
theorem buildIndex_one_row_per_date (log : Bytes)
    (hcontig : Contiguous (datesOf (linesWithOffsets log))) :
    ∃ msgs es, buildIndex (some log) true = some { messages := msgs, index := some es } ∧
      es = firstOccurrences [] (linesWithOffsets log) ∧
      (es.map (fun e => e.1)).Nodup ∧
      (∀ d, d ∈ es.map (fun e => e.1) ↔ d ∈ datesOf (linesWithOffsets log)) ∧
      (es.map (fun e => e.2)).Pairwise (fun a b => a < b) ∧
      (∀ e ∈ es, ∃ pre l post, linesWithOffsets log = pre ++ (e.2.toNat, l) :: post ∧
        0 ≤ e.2 ∧ 10 ≤ l.length ∧ l.take 10 = e.1 ∧ e.1 ∉ datesOf pre) ∧
      (∀ l ls, fileLines log = l :: ls → 10 ≤ l.length → es.head? = some (l.take 10, 0)) := by
  have heq : indexOfLines [] (linesWithOffsets log) = firstOccurrences [] (linesWithOffsets log) := by
    apply indexOfLines_eq_firstOccurrences _ _ _ hcontig
    · intro hm
      have := length_of_mem_datesOf ((List.dropWhile_sublist _).subset hm)
      simp at this
    · intro d hd; simp at hd
    · right; simp
  refine ⟨_, _, buildIndex_eq log, heq, ?_, ?_, ?_, ?_, ?_⟩
  · rw [heq]; exact firstOccurrences_nodup _ _
  · intro d; rw [heq, mem_firstOccurrences_iff]; simp
  · rw [List.pairwise_map]; exact indexOfLines_pairwise [] 0 (fileLines log)
  · intro e he
    rw [heq] at he
    obtain ⟨pre, q, post, hL, he', h10, _, hpre⟩ := firstOccurrences_mem _ _ _ he
    obtain ⟨o, l⟩ := q
    subst he'
    exact ⟨pre, l, post, by simpa using hL, by simp, h10, rfl, hpre⟩
  · intro l ls hl h10
    rw [heq]
    simp [linesWithOffsets, hl, withOffsets, firstOccurrences, h10]

theorem buildIndex_one_row_per_date_witness :
    Contiguous (datesOf (linesWithOffsets
        "2024-12-01 A\n2024-12-01 B\n2024-12-02 C\n".toList)) ∧
    ∃ msgs es, buildIndex (some "2024-12-01 A\n2024-12-01 B\n2024-12-02 C\n".toList) true
        = some { messages := msgs, index := some es } ∧
      es = firstOccurrences [] (linesWithOffsets
        "2024-12-01 A\n2024-12-01 B\n2024-12-02 C\n".toList) ∧
      (es.map (fun e => e.1)).Nodup ∧
      (∀ d, d ∈ es.map (fun e => e.1) ↔
        d ∈ datesOf (linesWithOffsets "2024-12-01 A\n2024-12-01 B\n2024-12-02 C\n".toList)) ∧
      (es.map (fun e => e.2)).Pairwise (fun a b => a < b) ∧
      (∀ e ∈ es, ∃ pre l post,
        linesWithOffsets "2024-12-01 A\n2024-12-01 B\n2024-12-02 C\n".toList
          = pre ++ (e.2.toNat, l) :: post ∧
        0 ≤ e.2 ∧ 10 ≤ l.length ∧ l.take 10 = e.1 ∧ e.1 ∉ datesOf pre) ∧
      (∀ l ls, fileLines "2024-12-01 A\n2024-12-01 B\n2024-12-02 C\n".toList = l :: ls →
        10 ≤ l.length → es.head? = some (l.take 10, 0)) :=
  ⟨by decide, buildIndex_one_row_per_date _ (by decide)⟩

/-! ## The extraction and loading loops as folds -/

theorem extractLoop_eq (date : Bytes) (endOffset : Int) (fuel : Nat) :
    ∀ (s : IStream) (p : Nat) (r : Bytes) (out : List Bytes),
    Ready s p r → r.length < fuel →
    extractLoop date endOffset fuel s out
      = some (out ++ scanLines date endOffset (withOffsets p (fileLines r))) := by
  induction fuel with
  | zero => intro s p r out _ h; exact absurd h (Nat.not_lt_zero _)
  | succ fuel ih =>
    intro s p r out hs hfuel
    by_cases hr : r = []
    · subst hr
      have hg := getline_of_nil hs
      unfold extractLoop
      by_cases he : s.eofbit = true
      · simp [he, fileLines, withOffsets, scanLines]
      · by_cases hend : endOffset ≠ -1 ∧ tellg s ≥ endOffset
        · simp [he, hend, fileLines, withOffsets, scanLines]
        · simp only [he, Bool.false_eq_true, if_false, hend, hg, if_true, fileLines, withOffsets,
            scanLines, List.append_nil]
    · obtain ⟨hline, hfail, _, hready⟩ := getline_of_ne_nil hs hr
      have htell := tellg_of_ne_nil hs hr
      have he : s.eofbit = false := by
        cases h : s.eofbit with
        | false => rfl
        | true => exact absurd (hs.2.2.1 h) hr
      have hlen := tail_dropWhile_length_lt (fun x => x != '\n') hr
      have hfuel' : (r.dropWhile (fun x => x != '\n')).tail.length < fuel := by omega
      unfold extractLoop
      rw [fileLines_of_ne_nil hr]
      simp only [he, Bool.false_eq_true, if_false, hfail, htell, withOffsets, scanLines, hline,
        ge_iff_le]
      by_cases hend : endOffset ≠ -1 ∧ endOffset ≤ (p : Int)
      · simp [hend]
      · simp only [hend, if_false]
        by_cases hd : 10 ≤ (r.takeWhile (fun x => x != '\n')).length ∧
            List.take 10 (r.takeWhile (fun x => x != '\n')) ≠ date
        · simp [hd]
        · simp only [hd, if_false]
          rw [ih _ _ _ _ hready hfuel']
          simp

theorem extractLoop_failed (date : Bytes) (endOffset : Int) (fuel : Nat) (s : IStream)
    (out : List Bytes) (hf : s.failbit = true) :
    extractLoop date endOffset (fuel + 1) s out = some out := by
  unfold extractLoop
  have hg : (getline s).1.failbit = true := by
    simp [getline, getlineDelim, hf]
  by_cases he : s.eofbit = true
  · simp [he]
  · by_cases hend : endOffset ≠ -1 ∧ tellg s ≥ endOffset
    · simp [he, hend]
    · simp only [he, Bool.false_eq_true, if_false, hend, hg, if_true]

/-- The lines `extractLogsForDate` writes, for every log and every pair of offsets: nothing when
the seek fails, otherwise the scan of the lines that begin at `startOffset`. -/
theorem extractLines_eq (date log : Bytes) (startOffset endOffset : Int) :
    extractLines date log startOffset endOffset = some
      (if startOffset < 0 then []
       else scanLines date endOffset
         (withOffsets startOffset.toNat (fileLines (log.drop startOffset.toNat)))) := by
  unfold extractLines
  by_cases hneg : startOffset < 0
  · rw [if_pos hneg]
    exact extractLoop_failed _ _ _ _ _ (by simp [seekg, openStream, hneg])
  · rw [if_neg hneg]
    have hready : Ready (seekg (openStream log) startOffset) startOffset.toNat
        (log.drop startOffset.toNat) := by
      simp [Ready, seekg, openStream, hneg]
    have := extractLoop_eq date endOffset (log.length + 1) _ _ _ [] hready
      (by rw [List.length_drop]; omega)
    simpa using this

theorem loadIndexLoop_eq (fuel : Nat) : ∀ (s : IStream) (p : Nat) (r : Bytes) (acc : List Entry),
    Ready s p r → r.length < fuel →
    loadIndexLoop fuel s acc = some (loadLines (fileLines r) acc) := by
  induction fuel with
  | zero => intro s p r acc _ h; exact absurd h (Nat.not_lt_zero _)
  | succ fuel ih =>
    intro s p r acc hs hfuel
    by_cases hr : r = []
    · subst hr
      have hg := getline_of_nil hs
      unfold loadIndexLoop
      simp [hg, fileLines, loadLines]
    · obtain ⟨hline, hfail, _, hready⟩ := getline_of_ne_nil hs hr
      have hlen := tail_dropWhile_length_lt (fun x => x != '\n') hr
      have hfuel' : (r.dropWhile (fun x => x != '\n')).tail.length < fuel := by omega
      unfold loadIndexLoop
      rw [fileLines_of_ne_nil hr]
      simp only [hfail, Bool.false_eq_true, if_false, hline, loadLines]
      cases hparse : parseIndexLine (r.takeWhile (fun x => x != '\n')) with
      | error e => rfl
      | ok v =>
        cases v with
        | none => exact ih _ _ _ _ hready hfuel'
        | some e => exact ih _ _ _ _ hready hfuel'

/-- Loading always ends: the result is the fold of `parseIndexLine` over the lines of the
index file. -/
theorem loadIndex_eq (index : Bytes) :
    loadIndex index = some (loadLines (fileLines index) []) := by
  exact loadIndexLoop_eq (index.length + 2) (openStream index) 0 index [] (ready_openStream index)
    (by omega)

theorem withOffsets_map_snd : ∀ (ls : List Bytes) (p : Nat),
    (withOffsets p ls).map (fun q => q.2) = ls := by
  intro ls
  induction ls with
  | nil => intro p; rfl
  | cons l ls ih => intro p; simp [withOffsets, ih]

theorem scanLines_prefix (date : Bytes) (endOffset : Int) : ∀ (L : List (Nat × Bytes)),
    scanLines date endOffset L <+:
      (L.map (fun q => q.2)).takeWhile (fun l => decide (¬ (10 ≤ l.length ∧ l.take 10 ≠ date))) := by
  intro L
  induction L with
  | nil => simp [scanLines]
  | cons q rest ih =>
    simp only [scanLines, List.map_cons]
    by_cases hend : endOffset ≠ -1 ∧ endOffset ≤ (q.1 : Int)
    · rw [if_pos hend]; exact List.nil_prefix
    · rw [if_neg hend]
      by_cases hd : 10 ≤ q.2.length ∧ q.2.take 10 ≠ date
      · rw [if_pos hd]; exact List.nil_prefix
      · rw [if_neg hd, List.takeWhile_cons_of_pos (by simp only [decide_eq_true_eq]; exact hd)]
        exact (List.prefix_cons_inj _).mpr ih

/-- The result of `extractLogsForDate` when the index file, the log file and the output file
can be opened, the index loads and the date is found. -/
theorem extractLogsForDate_written {date log index : Bytes} {loaded : List Entry}
    (hload : loadIndex index = some (.ok loaded))
    (hfound : (findOffsets date (sortByOffset loaded)).1 ≠ -1) :
    extractLogsForDate date (some log) (some index) true = some
      { messages := [.info "[INFO] Extracting logs", .info "[INFO] Logs written"],
        threw := none, createdOutputDir := true, openedLog := true,
        output := some
          (if (findOffsets date (sortByOffset loaded)).1 < 0 then []
           else scanLines date (findOffsets date (sortByOffset loaded)).2
             (withOffsets (findOffsets date (sortByOffset loaded)).1.toNat
               (fileLines (log.drop (findOffsets date (sortByOffset loaded)).1.toNat)))) } := by
  simp only [extractLogsForDate, extractLogsForDateWith, hload, hfound, if_false, Bool.not_true, Bool.false_eq_true,
    extractLines_eq, Option.map_some']

/-- Whenever `extractLogsForDate` creates the output artifact, all three files could be opened
and the index was loaded with the requested date found in it. -/
theorem extractLogsForDate_output {date : Bytes} {logFile indexFile : Option Bytes}
    {writable : Bool} {o : ExtractOutcome} {lines : List Bytes}
    (h : extractLogsForDate date logFile indexFile writable = some o)
    (hout : o.output = some lines) :
    ∃ log index loaded, logFile = some log ∧ indexFile = some index ∧ writable = true ∧
      loadIndex index = some (.ok loaded) ∧ (findOffsets date (sortByOffset loaded)).1 ≠ -1 := by
  cases indexFile with
  | none =>
    simp only [extractLogsForDate, extractLogsForDateWith, Option.some.injEq] at h
    subst h; simp at hout
  | some index =>
    cases hl : loadLines (fileLines index) [] with
    | error e =>
      simp only [extractLogsForDate, extractLogsForDateWith, loadIndex_eq, hl, Option.some.injEq] at h
      subst h; simp at hout
    | ok loaded =>
      by_cases hfound : (findOffsets date (sortByOffset loaded)).1 = -1
      · simp only [extractLogsForDate, extractLogsForDateWith, loadIndex_eq, hl, hfound, if_true, Option.some.injEq] at h
        subst h; simp at hout
      · cases logFile with
        | none =>
          simp only [extractLogsForDate, extractLogsForDateWith, loadIndex_eq, hl, hfound, if_false,
            Option.some.injEq] at h
          subst h; simp at hout
        | some log =>
          cases writable with
          | false =>
            simp only [extractLogsForDate, extractLogsForDateWith, loadIndex_eq, hl, hfound, if_false, Bool.not_false,
              if_true, Option.some.injEq] at h
            subst h; simp at hout
          | true =>
            exact ⟨log, index, loaded, rfl, rfl, rfl, by rw [loadIndex_eq, hl], hfound⟩

/-- Claim C6 (defensive date boundary).  For every log file, every index file and every requested
date, whenever `extractLogsForDate` writes lines, every written line of at least 10 bytes has
the requested date as its first 10 bytes, and the written lines are an initial part of the
lines read from `startOffset` on that ends before the first line of at least 10 bytes whose
first 10 bytes differ from the date: that line is not written, nor any line after it. -/
theorem extract_date_boundary (date : Bytes) (logFile indexFile : Option Bytes) (writable : Bool)
    (o : ExtractOutcome) (lines : List Bytes)
    (h : extractLogsForDate date logFile indexFile writable = some o)
    (hout : o.output = some lines) :
    (∀ l ∈ lines, 10 ≤ l.length → l.take 10 = date) ∧
    ∃ log index loaded, logFile = some log ∧ indexFile = some index ∧
      loadIndex index = some (.ok loaded) ∧
      lines <+: (fileLines (log.drop (findOffsets date (sortByOffset loaded)).1.toNat)).takeWhile
        (fun l => decide (¬ (10 ≤ l.length ∧ l.take 10 ≠ date))) := by
  obtain ⟨log, index, loaded, rfl, rfl, rfl, hload, hfound⟩ := extractLogsForDate_output h hout
  rw [extractLogsForDate_written hload hfound, Option.some.injEq] at h
  subst h
  simp only [Option.some.injEq] at hout
  have hpre : lines <+:
      (fileLines (log.drop (findOffsets date (sortByOffset loaded)).1.toNat)).takeWhile
        (fun l => decide (¬ (10 ≤ l.length ∧ l.take 10 ≠ date))) := by
    rw [← hout]
    split
    · exact List.nil_prefix
    · have := scanLines_prefix date (findOffsets date (sortByOffset loaded)).2
        (withOffsets (findOffsets date (sortByOffset loaded)).1.toNat
          (fileLines (log.drop (findOffsets date (sortByOffset loaded)).1.toNat)))
      rwa [withOffsets_map_snd] at this
  refine ⟨?_, log, index, loaded, rfl, rfl, hload, hpre⟩
  intro l hl h10
  have hmem := hpre.subset hl
  have := List.mem_takeWhile_imp hmem
  simp only [decide_eq_true_eq] at this
  by_contra hne
  exact this ⟨h10, hne⟩

theorem extract_date_boundary_witness :
    extractLogsForDate "2024-12-01".toList
        (some "2024-12-01 A\n2024-12-01 B\n2024-12-02 C\n".toList)
        (some "2024-12-01,0\n2024-12-02,65\n".toList) true
      = some { messages := [.info "[INFO] Extracting logs", .info "[INFO] Logs written"],
               threw := none, createdOutputDir := true, openedLog := true,
               output := some ["2024-12-01 A".toList, "2024-12-01 B".toList] } ∧
    ((∀ l ∈ ["2024-12-01 A".toList, "2024-12-01 B".toList],
        10 ≤ l.length → l.take 10 = "2024-12-01".toList) ∧
     ∃ log index loaded,
      some "2024-12-01 A\n2024-12-01 B\n2024-12-02 C\n".toList = some log ∧
      some "2024-12-01,0\n2024-12-02,65\n".toList = some index ∧
      loadIndex index = some (.ok loaded) ∧
      ["2024-12-01 A".toList, "2024-12-01 B".toList] <+:
        (fileLines (log.drop (findOffsets "2024-12-01".toList (sortByOffset loaded)).1.toNat)).takeWhile
          (fun l => decide (¬ (10 ≤ l.length ∧ l.take 10 ≠ "2024-12-01".toList)))) :=
  ⟨by decide,
   extract_date_boundary "2024-12-01".toList
     (some "2024-12-01 A\n2024-12-01 B\n2024-12-02 C\n".toList)
     (some "2024-12-01,0\n2024-12-02,65\n".toList) true
     { messages := [.info "[INFO] Extracting logs", .info "[INFO] Logs written"],
       threw := none, createdOutputDir := true, openedLog := true,
       output := some ["2024-12-01 A".toList, "2024-12-01 B".toList] }
     ["2024-12-01 A".toList, "2024-12-01 B".toList] (by decide) rfl⟩

/-! ## Looking a date up, and rows the loader skips -/

theorem findOffsets_of_not_mem {date : Bytes} : ∀ {es : List Entry},
    (∀ e ∈ es, e.1 ≠ date) → findOffsets date es = (-1, -1) := by
  intro es
  induction es with
  | nil => intro _; rfl
  | cons e rest ih =>
    intro h
    have h1 : e.1 ≠ date := h e (List.mem_cons_self _ _)
    simp only [findOffsets, h1, if_false]
    exact ih (fun x hx => h x (List.mem_cons_of_mem _ hx))

theorem mem_sortByOffset {es : List Entry} {e : Entry} : e ∈ sortByOffset es ↔ e ∈ es :=
  (List.perm_insertionSort _ es).mem_iff

theorem fileLines_newline_cons (cs : Bytes) : fileLines ('\n' :: cs) = [] :: fileLines cs := by
  rw [fileLines, if_pos rfl]

theorem fileLines_cons_of_ne {c : Char} (hc : c ≠ '\n') (cs : Bytes) :
    fileLines (c :: cs) =
      match fileLines cs with
      | [] => [[c]]
      | l :: ls => (c :: l) :: ls := by
  rw [fileLines, if_neg hc]

theorem fileLines_append_newline : ∀ (a b : Bytes),
    fileLines (a ++ '\n' :: b) = fileLines (a ++ ['\n']) ++ fileLines b := by
  intro a
  induction a with
  | nil =>
    intro b
    rw [List.nil_append, List.nil_append, fileLines_newline_cons, fileLines_newline_cons]
    rfl
  | cons c a ih =>
    intro b
    rw [List.cons_append, List.cons_append]
    by_cases hc : c = '\n'
    · subst hc
      rw [fileLines_newline_cons, fileLines_newline_cons, ih b]; rfl
    · have hne : fileLines (a ++ ['\n']) ≠ [] := by
        rw [fileLines_of_ne_nil (by simp)]; simp
      rw [fileLines_cons_of_ne hc, fileLines_cons_of_ne hc, ih b]
      cases h : fileLines (a ++ ['\n']) with
      | nil => exact absurd h hne
      | cons l ls => rfl

theorem takeWhile_eq_self_of_not_mem {delim : Char} {l : Bytes} (h : delim ∉ l) :
    l.takeWhile (fun x => x != delim) = l := by
  rw [List.takeWhile_eq_self_iff]
  intro x hx
  simp only [bne_iff_ne, ne_eq]
  rintro rfl; exact h hx

theorem takeWhile_append_delim {delim : Char} {l : Bytes} (h : delim ∉ l) (rest : Bytes) :
    (l ++ delim :: rest).takeWhile (fun x => x != delim) = l := by
  induction l with
  | nil => simp [List.takeWhile]
  | cons c l ih =>
    have hc : c ≠ delim := fun e => h (e ▸ List.mem_cons_self _ _)
    have hl : delim ∉ l := fun hm => h (List.mem_cons_of_mem _ hm)
    simp [List.takeWhile_cons, hc, ih hl]

theorem dropWhile_append_delim {delim : Char} {l : Bytes} (h : delim ∉ l) (rest : Bytes) :
    (l ++ delim :: rest).dropWhile (fun x => x != delim) = delim :: rest := by
  induction l with
  | nil => simp [List.dropWhile]
  | cons c l ih =>
    have hc : c ≠ delim := fun e => h (e ▸ List.mem_cons_self _ _)
    have hl : delim ∉ l := fun hm => h (List.mem_cons_of_mem _ hm)
    simp [List.dropWhile_cons, hc, ih hl]

theorem dropWhile_eq_nil_of_not_mem {delim : Char} {l : Bytes} (h : delim ∉ l) :
    l.dropWhile (fun x => x != delim) = [] := by
  rw [List.dropWhile_eq_nil_iff]
  intro x hx
  simp only [bne_iff_ne, ne_eq]
  rintro rfl; exact h hx

theorem fileLines_line {l : Bytes} (h : '\n' ∉ l) : fileLines (l ++ ['\n']) = [l] := by
  rw [fileLines_of_ne_nil (by simp), takeWhile_append_delim h, dropWhile_append_delim h]
  simp [fileLines]

theorem fileLines_line_append {l : Bytes} (h : '\n' ∉ l) (rest : Bytes) :
    fileLines (l ++ '\n' :: rest) = l :: fileLines rest := by
  rw [fileLines_append_newline, fileLines_line h]; rfl

theorem loadLines_append : ∀ (A B : List Bytes) (acc : List Entry),
    loadLines (A ++ B) acc =
      match loadLines A acc with
      | .error e => .error e
      | .ok acc1 => loadLines B acc1 := by
  intro A
  induction A with
  | nil => intro B acc; rfl
  | cons l A ih =>
    intro B acc
    simp only [List.cons_append, loadLines]
    cases parseIndexLine l with
    | error e => rfl
    | ok v =>
      cases v with
      | none => exact ih B acc
      | some e => exact ih B _

theorem parseIndexLine_no_comma {line : Bytes} (h : ',' ∉ line) :
    parseIndexLine line = .ok none := by
  by_cases hl : line = []
  · subst hl; rfl
  · simp [parseIndexLine, getline, getlineDelim, openStream, takeWhile_eq_self_of_not_mem h,
      dropWhile_eq_nil_of_not_mem h, hl]

theorem parseIndexLine_nothing_after_comma {d : Bytes} (h : ',' ∉ d) :
    parseIndexLine (d ++ [',']) = .ok none := by
  simp [parseIndexLine, getline, getlineDelim, openStream, takeWhile_append_delim h,
    dropWhile_append_delim h]

theorem fileLines_insert_line {pre line : Bytes} (post : Bytes)
    (hpre : pre = [] ∨ pre.getLast? = some '\n') (hline : '\n' ∉ line) :
    fileLines (pre ++ line ++ ['\n'] ++ post) = fileLines pre ++ line :: fileLines post ∧
    fileLines (pre ++ post) = fileLines pre ++ fileLines post := by
  rcases hpre with rfl | hpre
  · constructor
    · simpa [fileLines] using fileLines_line_append hline post
    · simp [fileLines]
  · obtain ⟨pre1, rfl⟩ := List.getLast?_eq_some_iff.mp hpre
    constructor
    · have : pre1 ++ ['\n'] ++ line ++ ['\n'] ++ post = pre1 ++ '\n' :: (line ++ '\n' :: post) := by
        simp
      rw [this, fileLines_append_newline, fileLines_line_append hline]
    · have : pre1 ++ ['\n'] ++ post = pre1 ++ '\n' :: post := by simp
      rw [this, fileLines_append_newline]

/-- Claim C8, as the code behaves (rows without a delimiter are skipped).  A line of the index
file that has no comma, or nothing after its first comma, is skipped by the loader:
`extractLogsForDate` does exactly what it does on the index file without that line, for every
date, log file and output file state.  (`pre` is the part of the index file before the line:
empty or ending in a newline byte.) -/
theorem extract_skips_row_without_offset (date : Bytes) (logFile : Option Bytes)
    (pre line post : Bytes) (writable : Bool)
    (hpre : pre = [] ∨ pre.getLast? = some '\n') (hline : '\n' ∉ line)
    (hbad : ',' ∉ line ∨ ∃ d, ',' ∉ d ∧ line = d ++ [',']) :
    extractLogsForDate date logFile (some (pre ++ line ++ ['\n'] ++ post)) writable
      = extractLogsForDate date logFile (some (pre ++ post)) writable := by
  have hskip : parseIndexLine line = .ok none := by
    rcases hbad with h | ⟨d, hd, rfl⟩
    · exact parseIndexLine_no_comma h
    · exact parseIndexLine_nothing_after_comma hd
  obtain ⟨h1, h2⟩ := fileLines_insert_line post hpre hline
  have hload : loadIndex (pre ++ line ++ ['\n'] ++ post) = loadIndex (pre ++ post) := by
    rw [loadIndex_eq, loadIndex_eq, h1, h2, loadLines_append, loadLines_append]
    cases loadLines (fileLines pre) [] with
    | error e => rfl
    | ok acc => simp only [loadLines, hskip]
  simp only [extractLogsForDate, extractLogsForDateWith, hload]

theorem extract_skips_row_without_offset_witness :
    ("2024-12-01,0\n".toList = [] ∨ "2024-12-01,0\n".toList.getLast? = some '\n') ∧
    '\n' ∉ "no delimiter".toList ∧
    (',' ∉ "no delimiter".toList ∨ ∃ d, ',' ∉ d ∧ "no delimiter".toList = d ++ [',']) ∧
    extractLogsForDate "2024-12-02".toList (some "2024-12-01 A\n2024-12-02 B\n".toList)
        (some ("2024-12-01,0\n".toList ++ "no delimiter".toList ++ ['\n']
          ++ "2024-12-02,13\n".toList)) true
      = extractLogsForDate "2024-12-02".toList (some "2024-12-01 A\n2024-12-02 B\n".toList)
        (some ("2024-12-01,0\n".toList ++ "2024-12-02,13\n".toList)) true :=
  ⟨Or.inr (by decide), by decide, Or.inl (by decide),
   extract_skips_row_without_offset "2024-12-02".toList
     (some "2024-12-01 A\n2024-12-02 B\n".toList) "2024-12-01,0\n".toList "no delimiter".toList
     "2024-12-02,13\n".toList true (Or.inr (by decide)) (by decide) (Or.inl (by decide))⟩

/-- Claim C8, counterexample.  An index file with a line that has no comma and a line with nothing
after its comma: `extractLogsForDate` throws nothing, reports no error and extracts from the
remaining row. -/
theorem extract_row_without_offset_not_fatal :
    extractLogsForDate "2024-12-01".toList (some "2024-12-01 A\n".toList)
        (some "no delimiter\n2024-12-01,\n2024-12-01,0\n".toList) true
      = some { messages := [.info "[INFO] Extracting logs", .info "[INFO] Logs written"],
               threw := none, createdOutputDir := true, openedLog := true,
               output := some ["2024-12-01 A".toList] } := by
  decide

/-! ## `stoll` and the decimal text of an offset -/

theorem digitChar_isDigit : ∀ k, k < 10 → (Nat.digitChar k).isDigit = true := by
  decide

theorem digitChar_value : ∀ k, k < 10 → (Nat.digitChar k).toNat - 48 = k := by
  decide

theorem toDigitsCore_isDigit (fuel : Nat) : ∀ (n : Nat) (acc : List Char),
    (∀ c ∈ acc, c.isDigit = true) → ∀ c ∈ Nat.toDigitsCore 10 fuel n acc, c.isDigit = true := by
  induction fuel with
  | zero => intro n acc h; simpa [Nat.toDigitsCore] using h
  | succ fuel ih =>
    intro n acc h
    have hacc : ∀ c ∈ Nat.digitChar (n % 10) :: acc, c.isDigit = true := by
      intro c hc
      rcases List.mem_cons.mp hc with rfl | hc
      · exact digitChar_isDigit _ (Nat.mod_lt _ (by decide))
      · exact h c hc
    simp only [Nat.toDigitsCore]
    split
    · exact hacc
    · exact ih _ _ hacc

theorem toDigitsCore_length_ge (fuel : Nat) : ∀ (n : Nat) (acc : List Char),
    acc.length ≤ (Nat.toDigitsCore 10 fuel n acc).length := by
  induction fuel with
  | zero => intro n acc; simp [Nat.toDigitsCore]
  | succ fuel ih =>
    intro n acc
    simp only [Nat.toDigitsCore]
    split
    · simp
    · have := ih (n / 10) (Nat.digitChar (n % 10) :: acc)
      simp only [List.length_cons] at this
      omega

theorem foldl_toDigitsCore (fuel : Nat) : ∀ (n : Nat) (acc : List Char), n < fuel →
    List.foldl (fun a c => 10 * a + (c.toNat - 48)) 0 (Nat.toDigitsCore 10 fuel n acc)
      = List.foldl (fun a c => 10 * a + (c.toNat - 48)) n acc := by
  induction fuel with
  | zero => intro n acc h; exact absurd h (Nat.not_lt_zero _)
  | succ fuel ih =>
    intro n acc hn
    have hd := digitChar_value (n % 10) (Nat.mod_lt _ (by decide))
    simp only [Nat.toDigitsCore]
    split
    · rename_i h0
      have : n % 10 = n := by omega
      rw [this] at hd
      simp only [List.foldl_cons, hd, Nat.mul_zero, Nat.zero_add, this]
    · rename_i h0
      rw [ih _ _ (by omega)]
      simp only [List.foldl_cons, hd]
      congr 1
      omega

theorem toDigits_isDigit (n : Nat) : ∀ c ∈ Nat.toDigits 10 n, c.isDigit = true :=
  toDigitsCore_isDigit _ _ _ (by simp)

theorem toDigits_ne_nil (n : Nat) : Nat.toDigits 10 n ≠ [] := by
  intro h
  have h1 : Nat.toDigits 10 n = Nat.toDigitsCore 10 (n + 1) n [] := rfl
  rw [h1] at h
  simp only [Nat.toDigitsCore] at h
  split at h
  · simp at h
  · have := toDigitsCore_length_ge n (n / 10) [Nat.digitChar (n % 10)]
    rw [h] at this
    simp at this

theorem digitsValue_toDigits (n : Nat) : digitsValue (Nat.toDigits 10 n) = n := by
  have := foldl_toDigitsCore (n + 1) n [] (Nat.lt_succ_self n)
  simpa [digitsValue, Nat.toDigits] using this

theorem isDigit_not_space {c : Char} (h : c.isDigit = true) :
    isSpace c = false ∧ c ≠ '-' ∧ c ≠ '+' ∧ c ≠ ',' ∧ c ≠ '\n' := by
  refine ⟨?_, ?_, ?_, ?_, ?_⟩
  · simp only [isSpace, Bool.or_eq_false_iff, decide_eq_false_iff_not]
    refine ⟨⟨⟨⟨⟨?_, ?_⟩, ?_⟩, ?_⟩, ?_⟩, ?_⟩ <;> (rintro rfl; revert h; decide)
  all_goals (rintro rfl; revert h; decide)

/-- What `stoll` returns on a run of digits followed by anything that does not start with a digit. -/
theorem stoll_digits {ds junk : Bytes} (hne : ds ≠ []) (hds : ∀ c ∈ ds, c.isDigit = true)
    (hjunk : ∀ c ∈ junk.head?, c.isDigit = false)
    (hmax : digitsValue ds ≤ 9223372036854775807) :
    stoll (ds ++ junk) = .ok (digitsValue ds : Int) := by
  obtain ⟨c, t, rfl⟩ := List.exists_cons_of_ne_nil hne
  obtain ⟨hsp, hminus, hplus, _, _⟩ := isDigit_not_space (hds c (List.mem_cons_self _ _))
  have htake : List.takeWhile Char.isDigit (c :: t ++ junk) = c :: t := by
    rw [List.takeWhile_append_of_pos hds]
    cases junk with
    | nil => simp
    | cons j js =>
      have : j.isDigit = false := hjunk j rfl
      simp [List.takeWhile_cons, this]
  have hdrop : List.dropWhile isSpace (c :: t ++ junk) = c :: t ++ junk := by
    simp [List.dropWhile_cons, hsp]
  have hv : ¬ ((digitsValue (c :: t) : Int) < -9223372036854775808 ∨
      9223372036854775807 < (digitsValue (c :: t) : Int)) := by
    have : (digitsValue (c :: t) : Int) ≤ 9223372036854775807 := by exact_mod_cast hmax
    omega
  unfold stoll
  simp only [hdrop]
  simp only [List.cons_append, List.head?_cons, Option.some.injEq, hminus, hplus, or_self,
    if_false, decide_False, Bool.false_eq_true]
  rw [List.cons_append] at htake
  simp only [htake, List.cons_ne_nil, if_false, hv]

theorem stoll_showInt {n : Int} (h0 : 0 ≤ n) (hmax : n ≤ 9223372036854775807) :
    stoll (showInt n) = .ok n := by
  have hshow : showInt n = Nat.toDigits 10 n.natAbs ++ [] := by
    simp [showInt, Int.not_lt.mpr h0]
  rw [hshow, stoll_digits (toDigits_ne_nil _) (toDigits_isDigit _) (by simp)
    (by rw [digitsValue_toDigits]; omega), digitsValue_toDigits]
  congr 1
  omega

theorem parseIndexLine_row {d text : Bytes} (hd : ',' ∉ d) (hne : text ≠ [])
    (htext : '\n' ∉ text) :
    parseIndexLine (d ++ ',' :: text) =
      match stoll text with
      | .error e => .error e
      | .ok pos => .ok (some (d, pos)) := by
  have hdrop : List.drop (d.length + 1) (d ++ ',' :: text) = text := by
    rw [← List.drop_drop, List.drop_left]; rfl
  simp only [parseIndexLine, getline, getlineDelim, openStream, Bool.or_self, Bool.false_eq_true,
    if_false, List.drop_zero, takeWhile_append_delim hd, dropWhile_append_delim hd, Nat.zero_add,
    hdrop, takeWhile_eq_self_of_not_mem htext, dropWhile_eq_nil_of_not_mem htext,
    List.isEmpty_eq_true, hne]

theorem stoll_invalid {text : Bytes}
    (h : ∀ c ∈ text.head?, isSpace c = false ∧ c ≠ '-' ∧ c ≠ '+' ∧ c.isDigit = false) :
    stoll text = .error .invalid_argument := by
  cases text with
  | nil => rfl
  | cons c t =>
    obtain ⟨h1, h2, h3, h4⟩ := h c rfl
    simp [stoll, List.dropWhile_cons, h1, h2, h3, List.takeWhile_cons, h4]

theorem loadLines_error_of_mem : ∀ (ls : List Bytes) (acc : List Entry) (l : Bytes)
    (e : StollError), l ∈ ls → parseIndexLine l = .error e →
    ∃ e1, loadLines ls acc = .error e1 := by
  intro ls
  induction ls with
  | nil => intro acc l e h; simp at h
  | cons l0 ls ih =>
    intro acc l e hmem hparse
    simp only [loadLines]
    cases h0 : parseIndexLine l0 with
    | error e0 => exact ⟨e0, rfl⟩
    | ok v =>
      have hmem' : l ∈ ls := by
        rcases List.mem_cons.mp hmem with rfl | h
        · rw [hparse] at h0; cases h0
        · exact h
      cases v with
      | none => exact ih acc l e hmem' hparse
      | some e0 => exact ih _ l e hmem' hparse

/-- Claim C9, as the code behaves (offset text).  (1) When `stoll` throws on the offset text of some
line of the index file, `extractLogsForDate` ends with an uncaught exception before the
output directory is created or the log file opened: nothing is written.  (2) That is the case
of a row `d,text` whose `text` starts with a byte that is neither white space, a sign nor a
digit (`2024-12-01,abc`): `std::invalid_argument`.  (3) A row `d,<digits><junk>` whose junk does
not start with a digit (`2024-12-01,12abc`) is accepted, with the value of the digits as its
offset. -/
theorem extract_offset_text :
    (∀ (date : Bytes) (logFile : Option Bytes) (index : Bytes) (writable : Bool) (l : Bytes)
        (e : StollError), l ∈ fileLines index → parseIndexLine l = .error e →
        ∃ e1, extractLogsForDate date logFile (some index) writable = some
          { messages := [.info "[INFO] Extracting logs"], threw := some e1,
            createdOutputDir := false, openedLog := false, output := none }) ∧
    (∀ (d text : Bytes), ',' ∉ d → '\n' ∉ text → text ≠ [] →
        (∀ c ∈ text.head?, isSpace c = false ∧ c ≠ '-' ∧ c ≠ '+' ∧ c.isDigit = false) →
        parseIndexLine (d ++ ',' :: text) = .error .invalid_argument) ∧
    (∀ (d ds junk : Bytes), ',' ∉ d → '\n' ∉ ds ++ junk → ds ≠ [] →
        (∀ c ∈ ds, c.isDigit = true) → (∀ c ∈ junk.head?, c.isDigit = false) →
        digitsValue ds ≤ 9223372036854775807 →
        parseIndexLine (d ++ ',' :: (ds ++ junk)) = .ok (some (d, (digitsValue ds : Int)))) := by
  refine ⟨?_, ?_, ?_⟩
  · intro date logFile index writable l e hmem hparse
    obtain ⟨e1, he1⟩ := loadLines_error_of_mem _ [] l e hmem hparse
    exact ⟨e1, by simp only [extractLogsForDate, extractLogsForDateWith, loadIndex_eq, he1]⟩
  · intro d text hd htext hne hhead
    rw [parseIndexLine_row hd hne htext, stoll_invalid hhead]
  · intro d ds junk hd hnl hne hds hjunk hmax
    rw [parseIndexLine_row hd (by simp [hne]) hnl, stoll_digits hne hds hjunk hmax]

theorem extract_offset_text_witness :
    "2024-12-01,abc".toList ∈ fileLines "2024-12-02,0\n2024-12-01,abc\n".toList ∧
    parseIndexLine "2024-12-01,abc".toList = .error .invalid_argument ∧
    (∃ e1, extractLogsForDate "2024-12-02".toList (some "2024-12-02 A\n".toList)
        (some "2024-12-02,0\n2024-12-01,abc\n".toList) true = some
          { messages := [.info "[INFO] Extracting logs"], threw := some e1,
            createdOutputDir := false, openedLog := false, output := none }) ∧
    parseIndexLine ("2024-12-01".toList ++ ',' :: "abc".toList) = .error .invalid_argument ∧
    parseIndexLine ("2024-12-01".toList ++ ',' :: ("12".toList ++ "abc".toList))
      = .ok (some ("2024-12-01".toList, (digitsValue "12".toList : Int))) :=
  ⟨by decide, rfl,
   extract_offset_text.1 "2024-12-02".toList (some "2024-12-02 A\n".toList)
      "2024-12-02,0\n2024-12-01,abc\n".toList true "2024-12-01,abc".toList .invalid_argument
      (by decide) rfl,
   extract_offset_text.2.1 "2024-12-01".toList "abc".toList (by decide) (by decide) (by decide)
      (by decide),
   extract_offset_text.2.2 "2024-12-01".toList "12".toList "abc".toList (by decide) (by decide)
      (by decide) (by decide) (by decide) (by decide)⟩

/-- Claim C9, counterexample.  The row `2024-12-01,12abc` is not a parse error: the loader takes
the offset 12 from the leading digits and the line that begins at byte 12 is written. -/
theorem extract_partial_offset_accepted :
    extractLogsForDate "2024-12-01".toList (some "2024-11-30Z\n2024-12-01 A\n".toList)
        (some "2024-12-01,12abc\n".toList) true
      = some { messages := [.info "[INFO] Extracting logs", .info "[INFO] Logs written"],
               threw := none, createdOutputDir := true, openedLog := true,
               output := some ["2024-12-01 A".toList] } := by
  decide

/-! ## Exit status -/

theorem buildIndex_isSome (logFile : Option Bytes) (indexWritable : Bool) :
    ∃ o, buildIndex logFile indexWritable = some o := by
  cases logFile with
  | none => exact ⟨_, rfl⟩
  | some log =>
    cases indexWritable with
    | false => exact ⟨_, rfl⟩
    | true => exact ⟨_, buildIndex_eq log⟩

/-- Claim C10, counterexample.  With no file that can be opened, `--build-index` reports "Could
not open log file" and `--date` reports "Could not open index file", and `main` returns
`EXIT_SUCCESS` (0) both times. -/
theorem main_returns_success_on_open_failure :
    (main { readable := fun _ => none, writable := fun _ => false }
        ["extract_logs", "--build-index", "test_logs.log", "log_index.txt"]).map (fun r => r.exit)
      = some (some 0) ∧
    (main { readable := fun _ => none, writable := fun _ => false }
        ["extract_logs", "--date", "2024-12-01", "test_logs.log", "log_index.txt"]).map
          (fun r => r.exit)
      = some (some 0) := by
  constructor <;> rfl

/-! ## The index artifact read back -/

theorem not_mem_of_isDate {d : Bytes} (h : isDate d = true) : ',' ∉ d := by
  unfold isDate at h
  split at h
  · simp only [Bool.and_eq_true, beq_iff_eq] at h
    obtain ⟨⟨⟨⟨⟨⟨⟨⟨⟨a1, a2⟩, a3⟩, a4⟩, a5⟩, a6⟩, a7⟩, a8⟩, a9⟩, a10⟩ := h
    intro hm
    simp only [List.mem_cons, List.mem_singleton, List.not_mem_nil, or_false] at hm
    rcases hm with rfl | rfl | rfl | rfl | h | rfl | rfl | h | rfl | rfl
    all_goals first
      | exact absurd a1 (by decide)
      | exact absurd a2 (by decide)
      | exact absurd a3 (by decide)
      | exact absurd a4 (by decide)
      | exact absurd a6 (by decide)
      | exact absurd a7 (by decide)
      | exact absurd a9 (by decide)
      | exact absurd a10 (by decide)
      | (subst a5; exact absurd h (by decide))
      | (subst a8; exact absurd h (by decide))
  · exact absurd h (by simp)

theorem fileLines_no_newline : ∀ (r : Bytes) (l : Bytes), l ∈ fileLines r → '\n' ∉ l := by
  intro r
  induction r with
  | nil => intro l h; simp [fileLines] at h
  | cons c cs ih =>
    intro l h
    by_cases hc : c = '\n'
    · subst hc
      rw [fileLines_newline_cons] at h
      rcases List.mem_cons.mp h with rfl | h
      · simp
      · exact ih l h
    · rw [fileLines_cons_of_ne hc] at h
      cases hcs : fileLines cs with
      | nil =>
        rw [hcs] at h
        simp only [List.mem_singleton] at h
        subst h
        simpa using fun e => hc e.symm
      | cons l0 ls =>
        rw [hcs] at h ih
        rcases List.mem_cons.mp h with rfl | h
        · have := ih l0 (List.mem_cons_self _ _)
          intro hm
          rcases List.mem_cons.mp hm with e | hm
          · exact hc e.symm
          · exact this hm
        · exact ih l (List.mem_cons_of_mem _ h)

theorem showInt_of_nonneg {n : Int} (h : 0 ≤ n) : showInt n = Nat.toDigits 10 n.natAbs := by
  simp [showInt, Int.not_lt.mpr h]

theorem newline_not_mem_rowText {e : Entry} (h1 : '\n' ∉ e.1) (h2 : 0 ≤ e.2) :
    '\n' ∉ rowText e := by
  unfold rowText
  rw [showInt_of_nonneg h2]
  intro hm
  rcases List.mem_append.mp hm with hm | hm
  · exact h1 hm
  · rcases List.mem_cons.mp hm with hm | hm
    · exact absurd hm (by decide)
    · exact absurd (toDigits_isDigit _ _ hm) (by decide)

theorem indexRow_eq (e : Entry) : indexRow e = rowText e ++ ['\n'] := by
  simp [indexRow, rowText]

theorem fileLines_indexBytes : ∀ (es : List Entry), (∀ e ∈ es, '\n' ∉ e.1 ∧ 0 ≤ e.2) →
    fileLines (indexBytes es) = es.map rowText := by
  intro es
  induction es with
  | nil => intro _; rfl
  | cons e es ih =>
    intro h
    have he := h e (List.mem_cons_self _ _)
    have : indexBytes (e :: es) = rowText e ++ '\n' :: indexBytes es := by
      simp [indexBytes, indexRow_eq]
    rw [this, fileLines_line_append (newline_not_mem_rowText he.1 he.2), List.map_cons,
      ih (fun x hx => h x (List.mem_cons_of_mem _ hx))]

theorem parseIndexLine_rowText {e : Entry} (h1 : ',' ∉ e.1) (h2 : 0 ≤ e.2)
    (h3 : e.2 ≤ 9223372036854775807) : parseIndexLine (rowText e) = .ok (some e) := by
  have hne : showInt e.2 ≠ [] := by rw [showInt_of_nonneg h2]; exact toDigits_ne_nil _
  have hnl : '\n' ∉ showInt e.2 := by
    rw [showInt_of_nonneg h2]
    exact fun hm => absurd (toDigits_isDigit _ _ hm) (by decide)
  unfold rowText
  rw [parseIndexLine_row h1 hne hnl, stoll_showInt h2 h3]

theorem loadLines_rowText : ∀ (es acc : List Entry),
    (∀ e ∈ es, ',' ∉ e.1 ∧ 0 ≤ e.2 ∧ e.2 ≤ 9223372036854775807) →
    loadLines (es.map rowText) acc = .ok (acc ++ es) := by
  intro es
  induction es with
  | nil => intro acc _; simp [loadLines]
  | cons e es ih =>
    intro acc h
    obtain ⟨h1, h2, h3⟩ := h e (List.mem_cons_self _ _)
    simp only [List.map_cons, loadLines, parseIndexLine_rowText h1 h2 h3]
    rw [ih _ (fun x hx => h x (List.mem_cons_of_mem _ hx))]
    simp

/-- Reading back the index artifact gives the rows that were written, when no date holds a
comma or a newline byte and the offsets are those of a file (0 up to the largest
`std::streamoff`). -/
theorem loadIndex_indexBytes {es : List Entry}
    (h : ∀ e ∈ es, ',' ∉ e.1 ∧ '\n' ∉ e.1 ∧ 0 ≤ e.2 ∧ e.2 ≤ 9223372036854775807) :
    loadIndex (indexBytes es) = some (.ok es) := by
  rw [loadIndex_eq, fileLines_indexBytes es (fun e he => ⟨(h e he).2.1, (h e he).2.2.1⟩),
    loadLines_rowText es [] (fun e he => ⟨(h e he).1, (h e he).2.2.1, (h e he).2.2.2⟩)]
  simp

/-! ## Blocks of lines between two rows of the index -/

theorem indexOfLines_offset_mem {cur : Bytes} {L : List (Nat × Bytes)} {e : Entry}
    (h : e ∈ indexOfLines cur L) : ∃ q ∈ L, e = (q.2.take 10, (q.1 : Int)) ∧ 10 ≤ q.2.length := by
  obtain ⟨pre, q, post, hL, he, h10, _, _⟩ := indexOfLines_mem L cur e h
  exact ⟨q, by rw [hL]; simp, he, h10⟩

theorem nextOffset_indexOfLines (cur : Bytes) (L : List (Nat × Bytes)) :
    nextOffset (indexOfLines cur L) = -1 ∨
      ∃ q ∈ L, nextOffset (indexOfLines cur L) = (q.1 : Int) := by
  cases h : indexOfLines cur L with
  | nil => left; rfl
  | cons e es =>
    right
    obtain ⟨q, hq, he, _⟩ := indexOfLines_offset_mem (h ▸ List.mem_cons_self e es)
    exact ⟨q, hq, by rw [he]; rfl⟩

/-- Scanning for `d` up to the offset of the next row writes the lines up to the next line that
would give a row. -/
theorem scanLines_to_next (d : Bytes) : ∀ (L : List (Nat × Bytes)),
    L.Pairwise (fun a b => a.1 < b.1) →
    scanLines d (nextOffset (indexOfLines d L)) L
      = (L.takeWhile (fun q => decide (¬ (10 ≤ q.2.length ∧ q.2.take 10 ≠ d)))).map
          (fun q => q.2) := by
  intro L
  induction L with
  | nil => intro _; rfl
  | cons q rest ih =>
    intro hL
    obtain ⟨hq, hrest⟩ := List.pairwise_cons.mp hL
    by_cases hemit : 10 ≤ q.2.length ∧ q.2.take 10 ≠ d
    · simp [indexOfLines, hemit, nextOffset, scanLines, List.takeWhile_cons]
    · have hidx : indexOfLines d (q :: rest) = indexOfLines d rest := by
        simp only [indexOfLines, hemit, if_false]
      have hend : ¬ (nextOffset (indexOfLines d rest) ≠ -1 ∧
          nextOffset (indexOfLines d rest) ≤ (q.1 : Int)) := by
        rintro ⟨h1, h2⟩
        rcases nextOffset_indexOfLines d rest with h | ⟨q1, hq1, h⟩
        · exact h1 h
        · have := hq q1 hq1
          rw [h] at h2
          omega
      rw [hidx, scanLines, if_neg hend, if_neg hemit, ih hrest,
        List.takeWhile_cons_of_pos (by simp only [decide_eq_true_eq]; exact hemit)]
      rfl

theorem dropWhile_lt_cons {q : Nat × Bytes} {rest : List (Nat × Bytes)} {s : Int}
    (h : (q.1 : Int) < s) :
    (q :: rest).dropWhile (fun x => decide ((x.1 : Int) < s))
      = rest.dropWhile (fun x => decide ((x.1 : Int) < s)) := by
  simp [List.dropWhile_cons, h]

theorem ranges_offset_mem {cur : Bytes} {L : List (Nat × Bytes)} {r : Bytes × Int × Int}
    (h : r ∈ ranges (indexOfLines cur L)) : ∃ q ∈ L, r.2.1 = (q.1 : Int) := by
  have key : ∀ (E : List Entry), r ∈ ranges E → ∃ e ∈ E, r.2.1 = e.2 := by
    intro E
    induction E with
    | nil => intro h; simp [ranges] at h
    | cons e E ih =>
      intro h
      simp only [ranges, List.mem_cons] at h
      rcases h with rfl | h
      · exact ⟨e, List.mem_cons_self _ _, rfl⟩
      · obtain ⟨e1, he1, h1⟩ := ih h
        exact ⟨e1, List.mem_cons_of_mem _ he1, h1⟩
  obtain ⟨e, he, hr⟩ := key _ h
  obtain ⟨q, hq, heq, _⟩ := indexOfLines_offset_mem he
  exact ⟨q, hq, by rw [hr, heq]⟩

/-- The scans of all rows, each from its own offset up to the offset of the next row, give
together every line from the first line that yields a row on, once each and in order. -/
theorem scans_flatten : ∀ (L : List (Nat × Bytes)) (cur : Bytes),
    L.Pairwise (fun a b => a.1 < b.1) →
    ((ranges (indexOfLines cur L)).map (fun r =>
        scanLines r.1 r.2.2 (L.dropWhile (fun q => decide ((q.1 : Int) < r.2.1))))).flatten
      = (L.dropWhile (fun q => decide (¬ (10 ≤ q.2.length ∧ q.2.take 10 ≠ cur)))).map
          (fun q => q.2) := by
  intro L
  induction L with
  | nil => intro cur _; rfl
  | cons q rest ih =>
    intro cur hL
    obtain ⟨hq, hrest⟩ := List.pairwise_cons.mp hL
    have hcongr : ∀ (c : Bytes), (ranges (indexOfLines c rest)).map (fun r =>
        scanLines r.1 r.2.2 ((q :: rest).dropWhile (fun x => decide ((x.1 : Int) < r.2.1))))
        = (ranges (indexOfLines c rest)).map (fun r =>
        scanLines r.1 r.2.2 (rest.dropWhile (fun x => decide ((x.1 : Int) < r.2.1)))) := by
      intro c
      apply List.map_congr_left
      intro r hr
      obtain ⟨q1, hq1, hs⟩ := ranges_offset_mem hr
      have := hq q1 hq1
      rw [dropWhile_lt_cons (by rw [hs]; omega)]
    by_cases hemit : 10 ≤ q.2.length ∧ q.2.take 10 ≠ cur
    · have hidx : indexOfLines cur (q :: rest)
          = (q.2.take 10, (q.1 : Int)) :: indexOfLines (q.2.take 10) rest := by
        rw [indexOfLines, if_pos hemit]
      have hend : ¬ (nextOffset (indexOfLines (q.2.take 10) rest) ≠ -1 ∧
          nextOffset (indexOfLines (q.2.take 10) rest) ≤ (q.1 : Int)) := by
        rintro ⟨h1, h2⟩
        rcases nextOffset_indexOfLines (q.2.take 10) rest with h | ⟨q1, hq1, h⟩
        · exact h1 h
        · have := hq q1 hq1
          rw [h] at h2
          omega
      rw [hidx, ranges, List.map_cons, List.flatten_cons, hcongr, ih _ hrest]
      dsimp only
      rw [List.dropWhile_cons_of_neg (by simp),
        List.dropWhile_cons_of_neg (by simp only [decide_eq_true_eq]; exact not_not.mpr hemit),
        scanLines, if_neg hend, if_neg (by simp), scanLines_to_next _ rest hrest,
        List.map_cons, List.cons_append, ← List.map_append, List.takeWhile_append_dropWhile]
    · have hidx : indexOfLines cur (q :: rest) = indexOfLines cur rest := by
        simp only [indexOfLines, hemit, if_false]
      rw [hidx, hcongr, ih _ hrest,
        List.dropWhile_cons_of_pos (by simp only [decide_eq_true_eq]; exact hemit)]

theorem findOffsets_cons_snd (e : Entry) (rest : List Entry) :
    findOffsets e.1 (e :: rest) = (e.2, nextOffset rest) := by
  cases rest <;> simp [findOffsets, nextOffset]

theorem findOffsets_ranges : ∀ (E : List Entry), (E.map (fun e => e.1)).Nodup →
    E.map (fun e => (e.1, (findOffsets e.1 E).1, (findOffsets e.1 E).2)) = ranges E := by
  intro E
  induction E with
  | nil => intro _; rfl
  | cons e E ih =>
    intro h
    simp only [List.map_cons, List.nodup_cons] at h
    obtain ⟨h1, h2⟩ := h
    simp only [List.map_cons, ranges, findOffsets_cons_snd]
    congr 1
    rw [← ih h2]
    apply List.map_congr_left
    intro x hx
    have hne : e.1 ≠ x.1 := fun heq => h1 (List.mem_map.mpr ⟨x, hx, heq.symm⟩)
    simp only [findOffsets, hne, if_false]

theorem findOffsets_fst_mem {d : Bytes} : ∀ {E : List Entry}, (∃ e ∈ E, e.1 = d) →
    ∃ e ∈ E, (findOffsets d E).1 = e.2 := by
  intro E
  induction E with
  | nil => rintro ⟨e, he, _⟩; simp at he
  | cons e0 E ih =>
    rintro ⟨e, he, hd⟩
    by_cases h0 : e0.1 = d
    · exact ⟨e0, List.mem_cons_self _ _, by simp [findOffsets, h0]⟩
    · have hmem : e ∈ E := by
        rcases List.mem_cons.mp he with rfl | h
        · exact absurd hd h0
        · exact h
      obtain ⟨e1, he1, h1⟩ := ih ⟨e, hmem, hd⟩
      exact ⟨e1, List.mem_cons_of_mem _ he1, by simp only [findOffsets, h0, if_false]; exact h1⟩

theorem dropWhile_append_cons {α : Type} (p : α → Bool) : ∀ (pre : List α) (q : α) (post : List α),
    (∀ x ∈ pre, p x = true) → p q = false → (pre ++ q :: post).dropWhile p = q :: post := by
  intro pre
  induction pre with
  | nil => intro q post _ hq; simp [List.dropWhile_cons, hq]
  | cons a pre ih =>
    intro q post h hq
    rw [List.cons_append, List.dropWhile_cons_of_pos (h a (List.mem_cons_self _ _))]
    exact ih q post (fun x hx => h x (List.mem_cons_of_mem _ hx)) hq

/-- The lines read after a seek to the start of a line are that line and the lines after it. -/
theorem lines_from_offset {log : Bytes} {q : Nat × Bytes} (hq : q ∈ linesWithOffsets log) :
    withOffsets q.1 (fileLines (log.drop q.1))
      = (linesWithOffsets log).dropWhile (fun x => decide ((x.1 : Int) < (q.1 : Int))) ∧
    q.1 < log.length := by
  obtain ⟨pre, post, hL⟩ := List.append_of_mem hq
  have hpw := withOffsets_pairwise (fileLines log) 0
  obtain ⟨_, h2, _⟩ := withOffsets_split pre log 0 q post hL
  simp only [Nat.sub_zero] at h2
  have hlt : q.1 < log.length := by
    by_contra hge
    rw [List.drop_eq_nil_of_le (by omega)] at h2
    simp [fileLines, withOffsets] at h2
  refine ⟨?_, hlt⟩
  unfold linesWithOffsets at hL ⊢
  rw [hL] at hpw ⊢
  rw [h2, dropWhile_append_cons]
  · intro x hx
    have := (List.pairwise_append.mp hpw).2.2 x hx q (List.mem_cons_self _ _)
    simpa using this
  · simp

/-- The rows of the index of a log whose dated lines start with a date in the form
`YYYY-MM-DD` and whose size fits a `std::streamoff` can be written and read back. -/
theorem index_rows_valid {log : Bytes} (hsize : log.length ≤ 9223372036854775807)
    (hdates : ∀ l ∈ fileLines log, 10 ≤ l.length → isDate (l.take 10) = true)
    {cur : Bytes} {e : Entry} (he : e ∈ indexOfLines cur (linesWithOffsets log)) :
    ',' ∉ e.1 ∧ '\n' ∉ e.1 ∧ 0 ≤ e.2 ∧ e.2 ≤ 9223372036854775807 ∧
    ∃ q ∈ linesWithOffsets log, e.2 = (q.1 : Int) := by
  obtain ⟨q, hq, heq, h10⟩ := indexOfLines_offset_mem he
  have hline : q.2 ∈ fileLines log := by
    have := List.mem_map_of_mem (fun x => x.2) hq
    rwa [linesWithOffsets, withOffsets_map_snd] at this
  have hlt := (lines_from_offset hq).2
  subst heq
  refine ⟨not_mem_of_isDate (hdates _ hline h10), ?_, by simp, ?_, q, hq, rfl⟩
  · exact fun hm => fileLines_no_newline _ _ hline (List.mem_of_mem_take hm)
  · show (q.1 : Int) ≤ 9223372036854775807
    omega

/-- What `extractLogsForDate` writes for a date of the index that `buildIndex` made of the same
log: the scan from the offset found for the date up to the end offset found for it. -/
theorem extract_with_own_index {log : Bytes} (hsize : log.length ≤ 9223372036854775807)
    (hdates : ∀ l ∈ fileLines log, 10 ≤ l.length → isDate (l.take 10) = true)
    {d : Bytes} (hd : ∃ e ∈ indexOfLines [] (linesWithOffsets log), e.1 = d) :
    extractLogsForDate d (some log)
        (some (indexBytes (indexOfLines [] (linesWithOffsets log)))) true = some
      { messages := [.info "[INFO] Extracting logs", .info "[INFO] Logs written"],
        threw := none, createdOutputDir := true, openedLog := true,
        output := some (scanLines d (findOffsets d (indexOfLines [] (linesWithOffsets log))).2
          ((linesWithOffsets log).dropWhile (fun x => decide
            ((x.1 : Int) < (findOffsets d (indexOfLines [] (linesWithOffsets log))).1)))) } := by
  have hload : loadIndex (indexBytes (indexOfLines [] (linesWithOffsets log)))
      = some (.ok (indexOfLines [] (linesWithOffsets log))) :=
    loadIndex_indexBytes (fun e he =>
      let h := index_rows_valid hsize hdates he
      ⟨h.1, h.2.1, h.2.2.1, h.2.2.2.1⟩)
  have hsort : sortByOffset (indexOfLines [] (linesWithOffsets log))
      = indexOfLines [] (linesWithOffsets log) :=
    sortByOffset_eq_self (indexOfLines_pairwise [] 0 (fileLines log))
  obtain ⟨e1, he1, hs⟩ := findOffsets_fst_mem hd
  obtain ⟨_, _, h0, _, q, hq, hoff⟩ := index_rows_valid hsize hdates he1
  have hstart : (findOffsets d (indexOfLines [] (linesWithOffsets log))).1 = (q.1 : Int) := by
    rw [hs, hoff]
  have hfound : (findOffsets d (sortByOffset (indexOfLines [] (linesWithOffsets log)))).1 ≠ -1 := by
    rw [hsort, hstart]; omega
  rw [extractLogsForDate_written hload hfound, hsort, hstart]
  have hnn : ¬ ((q.1 : Int) < 0) := by omega
  rw [if_neg hnn, Int.toNat_ofNat, (lines_from_offset hq).1]

/-! ## Round trip -/

theorem dropWhile_short_eq (L : List (Nat × Bytes)) :
    (L.dropWhile (fun q => decide (¬ (10 ≤ q.2.length ∧ q.2.take 10 ≠ ([] : Bytes))))).map
        (fun q => q.2)
      = (L.map (fun q => q.2)).dropWhile (fun l => decide (l.length < 10)) := by
  induction L with
  | nil => rfl
  | cons q rest ih =>
    by_cases h10 : 10 ≤ q.2.length
    · have hne : q.2.take 10 ≠ [] := by
        intro h
        have := congrArg List.length h
        simp only [List.length_take, List.length_nil] at this
        omega
      rw [List.dropWhile_cons_of_neg (by simp only [decide_eq_true_eq]; exact not_not.mpr ⟨h10, hne⟩),
        List.map_cons, List.dropWhile_cons_of_neg (by simpa using h10)]
    · rw [List.dropWhile_cons_of_pos (by simp only [decide_eq_true_eq]; exact fun h => h10 h.1),
        List.map_cons, List.dropWhile_cons_of_pos (by simpa using h10), ih]

theorem indexOfLines_nodup_of_contiguous {L : List (Nat × Bytes)}
    (hcontig : Contiguous (datesOf L)) :
    ((indexOfLines [] L).map (fun e => e.1)).Nodup := by
  have heq : indexOfLines [] L = firstOccurrences [] L := by
    apply indexOfLines_eq_firstOccurrences _ _ _ hcontig
    · intro hm
      have := length_of_mem_datesOf ((List.dropWhile_sublist _).subset hm)
      simp at this
    · intro d hd; simp at hd
    · right; simp
  rw [heq]
  exact firstOccurrences_nodup _ _

/-- Claim C1, as the code behaves (round trip).  For every log file whose lines of at least 10 bytes
start with a date `YYYY-MM-DD`, sorted ascending and contiguous per date (shorter lines may
occur anywhere), and whose size fits a `std::streamoff`: `buildIndex` followed by
`extractLogsForDate` for every date of the index, in index order, succeeds every time, and the
outputs put one after the other are exactly the lines of the log from its first line of at
least 10 bytes on, each once and in the original order.  Lines shorter than 10 bytes that
come before the first dated line are not written. -/
theorem roundtrip_from_first_dated_line (log : Bytes)
    (hsize : log.length ≤ 9223372036854775807)
    (hdates : ∀ l ∈ fileLines log, 10 ≤ l.length → isDate (l.take 10) = true)
    (_hsorted : (datesOf (linesWithOffsets log)).Pairwise (fun a b => a ≤ b))
    (hcontig : Contiguous (datesOf (linesWithOffsets log))) :
    ∃ (msgs : List Msg) (es : List Entry) (outs : List (List Bytes)),
      buildIndex (some log) true = some { messages := msgs, index := some es } ∧
      es.map (fun e => extractLogsForDate e.1 (some log) (some (indexBytes es)) true)
        = outs.map (fun lines => some
            { messages := [.info "[INFO] Extracting logs", .info "[INFO] Logs written"],
              threw := none, createdOutputDir := true, openedLog := true,
              output := some lines }) ∧
      outs.flatten = (fileLines log).dropWhile (fun l => decide (l.length < 10)) := by
  refine ⟨_, _, (ranges (indexOfLines [] (linesWithOffsets log))).map (fun r =>
      scanLines r.1 r.2.2 ((linesWithOffsets log).dropWhile
        (fun q => decide ((q.1 : Int) < r.2.1)))), buildIndex_eq log, ?_, ?_⟩
  · rw [← findOffsets_ranges _ (indexOfLines_nodup_of_contiguous hcontig), List.map_map,
      List.map_map]
    apply List.map_congr_left
    intro e he
    exact extract_with_own_index hsize hdates ⟨e, he, rfl⟩
  · have hpw : (linesWithOffsets log).Pairwise (fun a b => a.1 < b.1) :=
      withOffsets_pairwise _ _
    rw [scans_flatten _ _ hpw, dropWhile_short_eq, linesWithOffsets, withOffsets_map_snd]

theorem roundtrip_from_first_dated_line_witness :
    "short\n2024-12-01 A\nxx\n2024-12-02 B".toList.length ≤ 9223372036854775807 ∧
    (∀ l ∈ fileLines "short\n2024-12-01 A\nxx\n2024-12-02 B".toList,
      10 ≤ l.length → isDate (l.take 10) = true) ∧
    (datesOf (linesWithOffsets "short\n2024-12-01 A\nxx\n2024-12-02 B".toList)).Pairwise
      (fun a b => a ≤ b) ∧
    Contiguous (datesOf (linesWithOffsets "short\n2024-12-01 A\nxx\n2024-12-02 B".toList)) ∧
    ∃ (msgs : List Msg) (es : List Entry) (outs : List (List Bytes)),
      buildIndex (some "short\n2024-12-01 A\nxx\n2024-12-02 B".toList) true
        = some { messages := msgs, index := some es } ∧
      es.map (fun e => extractLogsForDate e.1
          (some "short\n2024-12-01 A\nxx\n2024-12-02 B".toList) (some (indexBytes es)) true)
        = outs.map (fun lines => some
            { messages := [.info "[INFO] Extracting logs", .info "[INFO] Logs written"],
              threw := none, createdOutputDir := true, openedLog := true,
              output := some lines }) ∧
      outs.flatten = (fileLines "short\n2024-12-01 A\nxx\n2024-12-02 B".toList).dropWhile
        (fun l => decide (l.length < 10)) :=
  ⟨by decide, by decide, by decide, by decide,
   roundtrip_from_first_dated_line _ (by decide) (by decide) (by decide) (by decide)⟩

/-- Claim C1, counterexample.  A sorted, contiguous log that begins with a line shorter than 10
bytes: the index has the single row `(2024-12-01, 6)`, extracting that date writes the one
dated line, and the line `short` of the log is in no output. -/
theorem roundtrip_drops_leading_short_line :
    (∀ l ∈ fileLines "short\n2024-12-01 A\n".toList,
      10 ≤ l.length → isDate (l.take 10) = true) ∧
    (datesOf (linesWithOffsets "short\n2024-12-01 A\n".toList)).Pairwise (fun a b => a ≤ b) ∧
    Contiguous (datesOf (linesWithOffsets "short\n2024-12-01 A\n".toList)) ∧
    buildIndex (some "short\n2024-12-01 A\n".toList) true = some
      { messages := [.info "[INFO] Building index", .info "[INFO] Index built successfully"],
        index := some [("2024-12-01".toList, 6)] } ∧
    extractLogsForDate "2024-12-01".toList (some "short\n2024-12-01 A\n".toList)
        (some (indexBytes [("2024-12-01".toList, 6)])) true = some
      { messages := [.info "[INFO] Extracting logs", .info "[INFO] Logs written"],
        threw := none, createdOutputDir := true, openedLog := true,
        output := some ["2024-12-01 A".toList] } ∧
    fileLines "short\n2024-12-01 A\n".toList = ["short".toList, "2024-12-01 A".toList] ∧
    ["2024-12-01 A".toList] ≠ fileLines "short\n2024-12-01 A\n".toList := by
  refine ⟨by decide, by decide, by decide, by decide, by decide, by decide, by decide⟩

/-! ## Extraction of one date -/

theorem takeWhile_eq_filter_of_contiguous (d : Bytes) : ∀ (L : List (Nat × Bytes)),
    (∀ q ∈ L, 10 ≤ q.2.length) →
    d ∉ (datesOf L).dropWhile (fun x => decide (x = d)) →
    L.takeWhile (fun q => decide (¬ (10 ≤ q.2.length ∧ q.2.take 10 ≠ d)))
      = L.filter (fun q => decide (q.2.take 10 = d)) := by
  intro L
  induction L with
  | nil => intro _ _; rfl
  | cons q rest ih =>
    intro hall hd
    have h10 := hall q (List.mem_cons_self _ _)
    have hall' : ∀ x ∈ rest, 10 ≤ x.2.length := fun x hx => hall x (List.mem_cons_of_mem _ hx)
    rw [datesOf_cons_dated h10] at hd
    by_cases hq : q.2.take 10 = d
    · rw [List.dropWhile_cons_of_pos (by simpa using hq)] at hd
      rw [List.takeWhile_cons_of_pos (by simp [hq]), List.filter_cons_of_pos (by simpa using hq),
        ih hall' hd]
    · rw [List.dropWhile_cons_of_neg (by simpa using hq)] at hd
      have hnot : d ∉ datesOf rest := fun hm => hd (List.mem_cons_of_mem _ hm)
      rw [List.takeWhile_cons_of_neg (by simp [hq, h10]),
        List.filter_cons_of_neg (by simpa using hq)]
      symm
      rw [List.filter_eq_nil_iff]
      intro x hx
      simp only [decide_eq_true_eq]
      intro hxd
      apply hnot
      simp only [datesOf, List.mem_map, List.mem_filter, decide_eq_true_eq]
      exact ⟨x, ⟨hx, hall' x hx⟩, hxd⟩

/-- For a sequence of dated lines with contiguous dates, the scan for a date `d` other than the
cursor, between the offsets found for `d` in the index, writes exactly the lines dated `d`. -/
theorem scan_eq_filter : ∀ (L : List (Nat × Bytes)) (cur d : Bytes),
    L.Pairwise (fun a b => a.1 < b.1) → (∀ q ∈ L, 10 ≤ q.2.length) →
    Contiguous (datesOf L) → cur ∉ (datesOf L).dropWhile (fun x => decide (x = cur)) →
    d ∈ datesOf L → d ≠ cur →
    (∃ e ∈ indexOfLines cur L, e.1 = d) ∧
    scanLines d (findOffsets d (indexOfLines cur L)).2
        (L.dropWhile (fun x => decide ((x.1 : Int) < (findOffsets d (indexOfLines cur L)).1)))
      = (L.filter (fun q => decide (q.2.take 10 = d))).map (fun q => q.2) := by
  intro L
  induction L with
  | nil => intro cur d _ _ _ _ hd _; simp [datesOf] at hd
  | cons q rest ih =>
    intro cur d hL hall hcontig hcur hd hne
    obtain ⟨hq, hrest⟩ := List.pairwise_cons.mp hL
    have h10 := hall q (List.mem_cons_self _ _)
    have hall' : ∀ x ∈ rest, 10 ≤ x.2.length := fun x hx => hall x (List.mem_cons_of_mem _ hx)
    rw [datesOf_cons_dated h10] at hcontig hcur hd
    obtain ⟨hc1, hc2⟩ := hcontig
    have hlater : ∀ (c : Bytes), (∃ e ∈ indexOfLines c rest, e.1 = d) →
        (q.1 : Int) < (findOffsets d (indexOfLines c rest)).1 := by
      intro c hex
      obtain ⟨e1, he1, hs⟩ := findOffsets_fst_mem hex
      obtain ⟨q1, hq1, heq, _⟩ := indexOfLines_offset_mem he1
      have := hq q1 hq1
      rw [hs, heq]
      show (q.1 : Int) < (q1.1 : Int)
      omega
    by_cases hqc : q.2.take 10 = cur
    · have hidx : indexOfLines cur (q :: rest) = indexOfLines cur rest := by
        rw [indexOfLines, if_neg (fun h => h.2 hqc)]
      have hd' : d ∈ datesOf rest := by
        rcases List.mem_cons.mp hd with h | h
        · exact absurd (h.trans hqc) hne
        · exact h
      rw [List.dropWhile_cons_of_pos (by simpa using hqc)] at hcur
      obtain ⟨hex, hscan⟩ := ih cur d hrest hall' hc2 hcur hd' hne
      refine ⟨by rw [hidx]; exact hex, ?_⟩
      rw [hidx, dropWhile_lt_cons (hlater cur hex), hscan,
        List.filter_cons_of_neg (by simp only [decide_eq_true_eq]; exact fun h => hne (h.symm.trans hqc))]
    · have hidx : indexOfLines cur (q :: rest)
          = (q.2.take 10, (q.1 : Int)) :: indexOfLines (q.2.take 10) rest := by
        rw [indexOfLines, if_pos ⟨h10, hqc⟩]
      by_cases hqd : q.2.take 10 = d
      · refine ⟨⟨_, by rw [hidx]; exact List.mem_cons_self _ _, hqd⟩, ?_⟩
        have hend : ¬ (nextOffset (indexOfLines d rest) ≠ -1 ∧
            nextOffset (indexOfLines d rest) ≤ (q.1 : Int)) := by
          rintro ⟨h1, h2⟩
          rcases nextOffset_indexOfLines d rest with h | ⟨q1, hq1, h⟩
          · exact h1 h
          · have := hq q1 hq1
            rw [h] at h2
            omega
        have hfind : findOffsets d ((q.2.take 10, (q.1 : Int)) :: indexOfLines (q.2.take 10) rest)
            = ((q.1 : Int), nextOffset (indexOfLines d rest)) := by
          have := findOffsets_cons_snd (q.2.take 10, (q.1 : Int)) (indexOfLines (q.2.take 10) rest)
          simp only [hqd] at this ⊢
          exact this
        rw [hidx, hfind]
        dsimp only
        rw [hqd] at hc1
        rw [List.dropWhile_cons_of_neg (by simp), scanLines, if_neg hend,
          if_neg (fun h => h.2 hqd), scanLines_to_next d rest hrest,
          takeWhile_eq_filter_of_contiguous d rest hall' hc1,
          List.filter_cons_of_pos (by simpa using hqd), List.map_cons]
      · have hd' : d ∈ datesOf rest := by
          rcases List.mem_cons.mp hd with h | h
          · exact absurd h.symm hqd
          · exact h
        obtain ⟨hex, hscan⟩ := ih (q.2.take 10) d hrest hall' hc2 hc1 hd' (fun h => hqd h.symm)
        have hfind : findOffsets d ((q.2.take 10, (q.1 : Int)) :: indexOfLines (q.2.take 10) rest)
            = findOffsets d (indexOfLines (q.2.take 10) rest) := by
          simp only [findOffsets, hqd, if_false]
        refine ⟨?_, ?_⟩
        · obtain ⟨e, he, hed⟩ := hex
          exact ⟨e, by rw [hidx]; exact List.mem_cons_of_mem _ he, hed⟩
        · rw [hidx, hfind, dropWhile_lt_cons (hlater _ hex), hscan,
            List.filter_cons_of_neg (by simpa using hqd)]

/-- Claim C2 (extraction of one date).  For every log file in which every line has at least 10
bytes and starts with a date `YYYY-MM-DD`, dates are contiguous and the size fits a
`std::streamoff`, and for every date `d` that is the first 10 bytes of some line:
`extractLogsForDate d` run against the index `buildIndex` writes for that log writes exactly the
lines of the log whose first 10 bytes are `d`, in their original order; the output artifact
holds each of them followed by one newline byte. -/
theorem extract_writes_lines_of_date (log : Bytes) (d : Bytes)
    (hsize : log.length ≤ 9223372036854775807)
    (hall : ∀ l ∈ fileLines log, 10 ≤ l.length ∧ isDate (l.take 10) = true)
    (hcontig : Contiguous (datesOf (linesWithOffsets log)))
    (hd : ∃ l ∈ fileLines log, l.take 10 = d) :
    ∃ (msgs : List Msg) (es : List Entry),
      buildIndex (some log) true = some { messages := msgs, index := some es } ∧
      extractLogsForDate d (some log) (some (indexBytes es)) true = some
        { messages := [.info "[INFO] Extracting logs", .info "[INFO] Logs written"],
          threw := none, createdOutputDir := true, openedLog := true,
          output := some ((fileLines log).filter (fun l => decide (l.take 10 = d))) } ∧
      outputBytes ((fileLines log).filter (fun l => decide (l.take 10 = d)))
        = (((fileLines log).filter (fun l => decide (l.take 10 = d))).map
            (fun l => l ++ ['\n'])).flatten := by
  refine ⟨_, _, buildIndex_eq log, ?_, rfl⟩
  have hsnd : (linesWithOffsets log).map (fun q => q.2) = fileLines log :=
    withOffsets_map_snd _ _
  have hall' : ∀ q ∈ linesWithOffsets log, 10 ≤ q.2.length := by
    intro q hq
    exact (hall q.2 (hsnd ▸ List.mem_map_of_mem (fun x => x.2) hq)).1
  have hd' : d ∈ datesOf (linesWithOffsets log) := by
    obtain ⟨l, hl, hld⟩ := hd
    rw [← hsnd] at hl
    obtain ⟨q, hq, rfl⟩ := List.mem_map.mp hl
    simp only [datesOf, List.mem_map, List.mem_filter, decide_eq_true_eq]
    exact ⟨q, ⟨hq, hall' q hq⟩, hld⟩
  have hlen := length_of_mem_datesOf hd'
  have hcur : ([] : Bytes) ∉ (datesOf (linesWithOffsets log)).dropWhile
      (fun x => decide (x = [])) := by
    intro hm
    have := length_of_mem_datesOf ((List.dropWhile_sublist _).subset hm)
    simp at this
  obtain ⟨hex, hscan⟩ := scan_eq_filter (linesWithOffsets log) [] d
    (withOffsets_pairwise _ _) hall' hcontig hcur hd' (by rintro rfl; simp at hlen)
  rw [extract_with_own_index hsize (fun l hl _ => (hall l hl).2) hex, hscan, ← hsnd,
    List.filter_map]
  rfl

theorem extract_writes_lines_of_date_witness :
    "2024-12-01 A\n2024-12-01 B\n2024-12-02 C\n".toList.length ≤ 9223372036854775807 ∧
    (∀ l ∈ fileLines "2024-12-01 A\n2024-12-01 B\n2024-12-02 C\n".toList,
      10 ≤ l.length ∧ isDate (l.take 10) = true) ∧
    Contiguous (datesOf (linesWithOffsets "2024-12-01 A\n2024-12-01 B\n2024-12-02 C\n".toList)) ∧
    ∃ (msgs : List Msg) (es : List Entry),
      buildIndex (some "2024-12-01 A\n2024-12-01 B\n2024-12-02 C\n".toList) true
        = some { messages := msgs, index := some es } ∧
      extractLogsForDate "2024-12-01".toList
          (some "2024-12-01 A\n2024-12-01 B\n2024-12-02 C\n".toList)
          (some (indexBytes es)) true = some
        { messages := [.info "[INFO] Extracting logs", .info "[INFO] Logs written"],
          threw := none, createdOutputDir := true, openedLog := true,
          output := some ((fileLines "2024-12-01 A\n2024-12-01 B\n2024-12-02 C\n".toList).filter
            (fun l => decide (l.take 10 = "2024-12-01".toList))) } ∧
      outputBytes ((fileLines "2024-12-01 A\n2024-12-01 B\n2024-12-02 C\n".toList).filter
          (fun l => decide (l.take 10 = "2024-12-01".toList)))
        = (((fileLines "2024-12-01 A\n2024-12-01 B\n2024-12-02 C\n".toList).filter
            (fun l => decide (l.take 10 = "2024-12-01".toList))).map
            (fun l => l ++ ['\n'])).flatten :=
  ⟨by decide, by decide, by decide,
   extract_writes_lines_of_date "2024-12-01 A\n2024-12-01 B\n2024-12-02 C\n".toList
     "2024-12-01".toList (by decide) (by decide) (by decide)
     ⟨"2024-12-01 A".toList, by decide, by decide⟩⟩

/-! ## Command dispatch -/

/-- Claim C11, as the code behaves (command dispatch).  The command tokens of the program are
`--build-index` and `--date`.  For all paths `L`, `I` and every date `D`, `main` called with
`--build-index L I` invokes `buildIndex(L, I)` and called with `--date D L I` invokes
`extractLogsForDate(D, L, I)`; with no arguments, or with any other first token, `main` returns
`EXIT_FAILURE` after a usage message and invokes neither. -/
theorem main_dispatch :
    (∀ (fs : FileSystem) (prog L I : String) (more : List String),
        main fs (prog :: "--build-index" :: L :: I :: more) =
          (buildIndex (fs.readable L) (fs.writable I)).map fun o =>
            { exit := some EXIT_SUCCESS, usage := [], call := .buildIndex L I o }) ∧
    (∀ (fs : FileSystem) (prog D L I : String) (more : List String),
        main fs (prog :: "--date" :: D :: L :: I :: more) =
          (extractLogsForDate D.toList (fs.readable L) (fs.readable I)
              (fs.writable ("output/output_" ++ D ++ ".txt"))).map fun o =>
            { exit := if o.threw.isSome then none else some EXIT_SUCCESS, usage := [],
              call := .extractLogsForDate D L I o }) ∧
    (∀ (fs : FileSystem) (argv : List String),
        argv.length < 2 ∨ (argv.getD 1 "" ≠ "--build-index" ∧ argv.getD 1 "" ≠ "--date") →
        ∃ msg, main fs argv = some
          { exit := some EXIT_FAILURE, usage := [.error msg], call := .none }) := by
  refine ⟨?_, ?_, ?_⟩
  · intro fs prog L I more
    simp only [main, List.length_cons, List.getD_cons_succ, List.getD_cons_zero, if_true]
    rw [if_neg (by omega), if_neg (by omega)]
  · intro fs prog D L I more
    simp only [main, List.length_cons, List.getD_cons_succ, List.getD_cons_zero, if_true]
    rw [if_neg (by omega), if_neg (by decide), if_neg (by omega)]
  · intro fs argv h
    rcases h with h | ⟨h1, h2⟩
    · exact ⟨_, by simp only [main, h, if_true]; rfl⟩
    · by_cases hlen : argv.length < 2
      · exact ⟨_, by simp only [main, hlen, if_true]; rfl⟩
      · exact ⟨_, by simp only [main, hlen, if_false, h1, h2]; rfl⟩

theorem main_dispatch_witness :
    (["extract_logs", "build-index", "test_logs.log", "log_index.txt"].length < 2 ∨
      (["extract_logs", "build-index", "test_logs.log", "log_index.txt"].getD 1 ""
          ≠ "--build-index" ∧
       ["extract_logs", "build-index", "test_logs.log", "log_index.txt"].getD 1 "" ≠ "--date")) ∧
    ∃ msg, main { readable := fun _ => some [], writable := fun _ => true }
        ["extract_logs", "build-index", "test_logs.log", "log_index.txt"] = some
      { exit := some EXIT_FAILURE, usage := [.error msg], call := .none } :=
  ⟨Or.inr (by decide),
   main_dispatch.2.2 { readable := fun _ => some [], writable := fun _ => true }
     ["extract_logs", "build-index", "test_logs.log", "log_index.txt"] (Or.inr (by decide))⟩

/-- Claim C11, counterexample.  The tokens `build-index` and `extract` are not commands of the
program: with all files present, `main` answers both with "Invalid command", returns
`EXIT_FAILURE` and invokes neither `buildIndex` nor `extractLogsForDate`. -/
theorem main_rejects_spec_tokens :
    main { readable := fun _ => some [], writable := fun _ => true }
        ["extract_logs", "build-index", "test_logs.log", "log_index.txt"] = some
      { exit := some EXIT_FAILURE,
        usage := [.error "Invalid command. Use --build-index or --date."], call := .none } ∧
    main { readable := fun _ => some [], writable := fun _ => true }
        ["extract_logs", "extract", "2024-12-01", "test_logs.log", "log_index.txt"] = some
      { exit := some EXIT_FAILURE,
        usage := [.error "Invalid command. Use --build-index or --date."], call := .none } := by
  constructor <;> rfl

/-! ## Range lookup -/

theorem extractLogsForDate_isSome (date : Bytes) (logFile indexFile : Option Bytes)
    (writable : Bool) : ∃ o, extractLogsForDate date logFile indexFile writable = some o := by
  cases indexFile with
  | none => exact ⟨_, rfl⟩
  | some index =>
    cases hl : loadLines (fileLines index) [] with
    | error e => exact ⟨_, by simp only [extractLogsForDate, extractLogsForDateWith, loadIndex_eq, hl]; rfl⟩
    | ok loaded =>
      by_cases hfound : (findOffsets date (sortByOffset loaded)).1 = -1
      · exact ⟨_, by simp only [extractLogsForDate, extractLogsForDateWith, loadIndex_eq, hl, hfound, if_true]; rfl⟩
      · cases logFile with
        | none =>
          exact ⟨_, by simp only [extractLogsForDate, extractLogsForDateWith, loadIndex_eq, hl, hfound, if_false]; rfl⟩
        | some log =>
          cases writable with
          | false =>
            exact ⟨_, by simp only [extractLogsForDate, extractLogsForDateWith, loadIndex_eq, hl, hfound, if_false,
              Bool.not_false, if_true]; rfl⟩
          | true =>
            exact ⟨_, extractLogsForDate_written (by rw [loadIndex_eq, hl]) hfound⟩

/-- The function reports "No logs found" exactly when the start offset it looked up is `-1`. -/
theorem extractLogsForDate_not_found_iff {date : Bytes} {logFile : Option Bytes} {index : Bytes}
    {writable : Bool} {loaded : List Entry} (hload : loadIndex index = some (.ok loaded)) :
    extractLogsForDate date logFile (some index) writable = some
        { messages := [.info "[INFO] Extracting logs", .info "[INFO] No logs found for date"],
          threw := none, createdOutputDir := false, openedLog := false, output := none }
      ↔ (findOffsets date (sortByOffset loaded)).1 = -1 := by
  constructor
  · intro h
    by_contra hfound
    cases logFile with
    | none =>
      simp only [extractLogsForDate, extractLogsForDateWith, hload, hfound, if_false, Option.some.injEq] at h
      exact absurd (congrArg ExtractOutcome.createdOutputDir h) (by simp)
    | some log =>
      cases writable with
      | false =>
        simp only [extractLogsForDate, extractLogsForDateWith, hload, hfound, if_false, Bool.not_false, if_true,
          Option.some.injEq] at h
        exact absurd (congrArg ExtractOutcome.createdOutputDir h) (by simp)
      | true =>
        rw [extractLogsForDate_written hload hfound, Option.some.injEq] at h
        exact absurd (congrArg ExtractOutcome.createdOutputDir h) (by simp)
  · intro h
    simp only [extractLogsForDate, extractLogsForDateWith, hload, h, if_true]

theorem loadLines_ok_of_no_error : ∀ (ls : List Bytes) (acc : List Entry),
    (∀ l ∈ ls, ∀ e, parseIndexLine l ≠ .error e) → loadLines ls acc = .ok (acc ++ rowsOf ls) := by
  intro ls
  induction ls with
  | nil => intro acc _; simp [loadLines, rowsOf]
  | cons l ls ih =>
    intro acc h
    have hl := h l (List.mem_cons_self _ _)
    have hls : ∀ x ∈ ls, ∀ e, parseIndexLine x ≠ .error e :=
      fun x hx => h x (List.mem_cons_of_mem _ hx)
    simp only [loadLines, rowsOf, List.filterMap_cons]
    cases hp : parseIndexLine l with
    | error e => exact absurd hp (hl e)
    | ok v =>
      cases v with
      | none => exact ih acc hls
      | some e =>
        have := ih (acc ++ [e]) hls
        simp only [rowsOf] at this
        simp only [this, List.append_assoc, List.singleton_append]

theorem sortByOffset_eq_of_perm {l1 l2 : List Entry} (hperm : l1.Perm l2)
    (hnodup : (l1.map (fun e => e.2)).Nodup) : sortByOffset l1 = sortByOffset l2 := by
  haveI : IsTotal Entry (fun a b => a.2 ≤ b.2) := ⟨fun a b => le_total a.2 b.2⟩
  haveI : IsTrans Entry (fun a b => a.2 ≤ b.2) := ⟨fun _ _ _ h1 h2 => le_trans h1 h2⟩
  have hs1 : (sortByOffset l1).Sorted (fun a b => a.2 ≤ b.2) := List.sorted_insertionSort _ l1
  have hs2 : (sortByOffset l2).Sorted (fun a b => a.2 ≤ b.2) := List.sorted_insertionSort _ l2
  have hp1 : (sortByOffset l1).Perm l1 := List.perm_insertionSort _ l1
  have hp2 : (sortByOffset l2).Perm l2 := List.perm_insertionSort _ l2
  have hp : (sortByOffset l1).Perm (sortByOffset l2) := hp1.trans (hperm.trans hp2.symm)
  have hn1 : ((sortByOffset l1).map (fun e => e.2)).Nodup := (hp1.map _).nodup_iff.mpr hnodup
  have hn2 : ((sortByOffset l2).map (fun e => e.2)).Nodup := (hp.map _).nodup_iff.mp hn1
  have strict : ∀ {l : List Entry}, l.Sorted (fun a b => a.2 ≤ b.2) →
      (l.map (fun e => e.2)).Nodup → l.Sorted (fun a b => a.2 < b.2) := by
    intro l hs hn
    rw [List.Nodup, List.pairwise_map] at hn
    exact (hs.and hn).imp (fun h => lt_of_le_of_ne h.1 h.2)
  haveI : IsAntisymm Entry (fun a b => a.2 < b.2) :=
    ⟨fun a b h1 h2 => absurd h1 (not_lt_of_lt h2)⟩
  exact List.eq_of_perm_of_sorted hp (strict hs1 hn1) (strict hs2 hn2)

/-- Claim C13 (order independence of the index file).  For every log file, every requested date
and every two index files of which one has the lines of the other in another order, when the
rows read from them have pairwise distinct offsets: `extractLogsForDate` gives the same
messages (so the same found / not found outcome), writes the same lines, touches the same
files, and throws on the one exactly when it throws on the other. -/
theorem extract_index_order_independent (date : Bytes) (logFile : Option Bytes)
    (index1 index2 : Bytes) (writable : Bool)
    (hperm : (fileLines index1).Perm (fileLines index2))
    (hdistinct : ((rowsOf (fileLines index1)).map (fun e => e.2)).Nodup) :
    ∃ o1 o2, extractLogsForDate date logFile (some index1) writable = some o1 ∧
      extractLogsForDate date logFile (some index2) writable = some o2 ∧
      o1.messages = o2.messages ∧ o1.output = o2.output ∧
      o1.createdOutputDir = o2.createdOutputDir ∧ o1.openedLog = o2.openedLog ∧
      o1.threw.isSome = o2.threw.isSome ∧
      ((∀ l ∈ fileLines index1, ∀ e, parseIndexLine l ≠ .error e) → o1 = o2) := by
  by_cases herr : ∃ l ∈ fileLines index1, ∃ e, parseIndexLine l = .error e
  · obtain ⟨l, hl, e, he⟩ := herr
    obtain ⟨e1, h1⟩ := loadLines_error_of_mem _ [] l e hl he
    obtain ⟨e2, h2⟩ := loadLines_error_of_mem _ [] l e (hperm.mem_iff.mp hl) he
    refine ⟨{ messages := [.info "[INFO] Extracting logs"], threw := some e1,
              createdOutputDir := false, openedLog := false, output := none },
      { messages := [.info "[INFO] Extracting logs"], threw := some e2,
        createdOutputDir := false, openedLog := false, output := none },
      by simp only [extractLogsForDate, extractLogsForDateWith, loadIndex_eq, h1],
      by simp only [extractLogsForDate, extractLogsForDateWith, loadIndex_eq, h2], rfl, rfl, rfl, rfl, rfl, ?_⟩
    intro hno
    exact absurd he (hno l hl e)
  · have hno1 : ∀ l ∈ fileLines index1, ∀ e, parseIndexLine l ≠ .error e :=
      fun l hl e he => herr ⟨l, hl, e, he⟩
    have hno2 : ∀ l ∈ fileLines index2, ∀ e, parseIndexLine l ≠ .error e :=
      fun l hl e he => herr ⟨l, hperm.mem_iff.mpr hl, e, he⟩
    have h1 : loadIndex index1 = some (.ok (rowsOf (fileLines index1))) := by
      rw [loadIndex_eq, loadLines_ok_of_no_error _ _ hno1]; rfl
    have h2 : loadIndex index2 = some (.ok (rowsOf (fileLines index2))) := by
      rw [loadIndex_eq, loadLines_ok_of_no_error _ _ hno2]; rfl
    have hrows : (rowsOf (fileLines index1)).Perm (rowsOf (fileLines index2)) :=
      hperm.filterMap _
    have hsort := sortByOffset_eq_of_perm hrows hdistinct
    have heq : extractLogsForDate date logFile (some index1) writable
        = extractLogsForDate date logFile (some index2) writable := by
      simp only [extractLogsForDate, extractLogsForDateWith, h1, h2, hsort]
    obtain ⟨o, ho⟩ := extractLogsForDate_isSome date logFile (some index1) writable
    exact ⟨o, o, ho, heq ▸ ho, rfl, rfl, rfl, rfl, rfl, fun _ => rfl⟩

theorem extract_index_order_independent_witness :
    (fileLines "2024-12-01,0\n2024-12-02,13\n".toList).Perm
      (fileLines "2024-12-02,13\n2024-12-01,0\n".toList) ∧
    ((rowsOf (fileLines "2024-12-01,0\n2024-12-02,13\n".toList)).map (fun e => e.2)).Nodup ∧
    ∃ o1 o2,
      extractLogsForDate "2024-12-01".toList (some "2024-12-01 A\n2024-12-02 B\n".toList)
        (some "2024-12-01,0\n2024-12-02,13\n".toList) true = some o1 ∧
      extractLogsForDate "2024-12-01".toList (some "2024-12-01 A\n2024-12-02 B\n".toList)
        (some "2024-12-02,13\n2024-12-01,0\n".toList) true = some o2 ∧
      o1.messages = o2.messages ∧ o1.output = o2.output ∧
      o1.createdOutputDir = o2.createdOutputDir ∧ o1.openedLog = o2.openedLog ∧
      o1.threw.isSome = o2.threw.isSome ∧
      ((∀ l ∈ fileLines "2024-12-01,0\n2024-12-02,13\n".toList,
          ∀ e, parseIndexLine l ≠ .error e) → o1 = o2) :=
  ⟨by decide, by decide,
   extract_index_order_independent "2024-12-01".toList
     (some "2024-12-01 A\n2024-12-02 B\n".toList) "2024-12-01,0\n2024-12-02,13\n".toList
     "2024-12-02,13\n2024-12-01,0\n".toList true (by decide) (by decide)⟩

/-! ## A short line in the log -/

theorem fileOfLines_cons (l : Bytes) (ls : List Bytes) :
    fileOfLines (l :: ls) = l ++ '\n' :: fileOfLines ls := by
  simp [fileOfLines]

theorem fileOfLines_append (A B : List Bytes) :
    fileOfLines (A ++ B) = fileOfLines A ++ fileOfLines B := by
  simp [fileOfLines]

theorem fileLines_fileOfLines : ∀ (ls : List Bytes), (∀ l ∈ ls, '\n' ∉ l) →
    fileLines (fileOfLines ls) = ls := by
  intro ls
  induction ls with
  | nil => intro _; rfl
  | cons l ls ih =>
    intro h
    rw [fileOfLines_cons, fileLines_line_append (h l (List.mem_cons_self _ _)),
      ih (fun x hx => h x (List.mem_cons_of_mem _ hx))]

theorem withOffsets_append : ∀ (A B : List Bytes) (p : Nat),
    withOffsets p (A ++ B) = withOffsets p A ++ withOffsets (p + (fileOfLines A).length) B := by
  intro A
  induction A with
  | nil => intro B p; simp [withOffsets, fileOfLines]
  | cons l A ih =>
    intro B p
    rw [List.cons_append, withOffsets, withOffsets, ih, fileOfLines_cons, List.cons_append]
    congr 3
    simp only [List.length_append, List.length_cons]
    omega

theorem indexOfLines_append : ∀ (X Y : List (Nat × Bytes)) (cur : Bytes),
    indexOfLines cur (X ++ Y) = indexOfLines cur X ++ indexOfLines (cursorAfter cur X) Y := by
  intro X
  induction X with
  | nil => intro Y cur; rfl
  | cons q X ih =>
    intro Y cur
    rw [List.cons_append]
    by_cases h : 10 ≤ q.2.length ∧ q.2.take 10 ≠ cur
    · rw [indexOfLines, if_pos h, indexOfLines, if_pos h, cursorAfter, if_pos h, ih,
        List.cons_append]
    · rw [indexOfLines, if_neg h, indexOfLines, if_neg h, cursorAfter, if_neg h, ih]

theorem indexOfLines_shift (k : Nat) : ∀ (ls : List Bytes) (cur : Bytes) (p : Nat),
    indexOfLines cur (withOffsets (p + k) ls)
      = (indexOfLines cur (withOffsets p ls)).map (fun e => (e.1, e.2 + (k : Int))) := by
  intro ls
  induction ls with
  | nil => intro cur p; rfl
  | cons l ls ih =>
    intro cur p
    have hp : p + k + l.length + 1 = (p + l.length + 1) + k := by omega
    simp only [withOffsets, indexOfLines, hp]
    split
    · rw [ih, List.map_cons]
      simp only [Nat.cast_add]
    · exact ih cur _

theorem indexOfLines_offset_bounds {cur : Bytes} {p : Nat} {ls : List Bytes} {e : Entry}
    (he : e ∈ indexOfLines cur (withOffsets p ls)) :
    (p : Int) ≤ e.2 ∧ e.2 < (p : Int) + ((fileOfLines ls).length : Int) := by
  obtain ⟨q, hq, heq, _⟩ := indexOfLines_offset_mem he
  obtain ⟨pre, post, hsplit⟩ := List.append_of_mem hq
  have hge := withOffsets_fst_ge _ _ _ hq
  have hmap := congrArg (List.map (fun x : Nat × Bytes => x.2)) hsplit
  rw [withOffsets_map_snd] at hmap
  simp only [List.map_append, List.map_cons] at hmap
  rw [hmap, withOffsets_append] at hsplit
  have hlen : (withOffsets p (pre.map (fun x => x.2))).length = pre.length := by
    have := congrArg List.length (withOffsets_map_snd (pre.map (fun x => x.2)) p)
    simpa using this
  have h2 := List.append_inj_right hsplit hlen
  rw [withOffsets] at h2
  have hq1 : q.1 = p + (fileOfLines (pre.map (fun x => x.2))).length := by
    have := congrArg (fun l : List (Nat × Bytes) => l.head?.map (fun x => x.1)) h2
    simpa using this.symm
  have htotal : (fileOfLines ls).length
      = (fileOfLines (pre.map (fun x => x.2))).length + (q.2.length + 1)
        + (fileOfLines (post.map (fun x => x.2))).length := by
    rw [hmap, fileOfLines_append, fileOfLines_cons]
    simp only [List.length_append, List.length_cons]
    omega
  rw [heq]
  constructor
  · show (p : Int) ≤ (q.1 : Int)
    omega
  · show (q.1 : Int) < (p : Int) + ((fileOfLines ls).length : Int)
    omega

/-- Claim C14 (short lines in the indexer).  For all line sequences `L1`, `L2` and every line `s`
shorter than 10 bytes: `A` being the rows of the index of `L1` alone and `A ++ B` the rows of
the index of `L1 ++ L2`, the index of `L1 ++ [s] ++ L2` is `A` followed by the rows of `B` with
their offsets larger by `length s + 1`.  So the dates are the same sequence, the rows from
`L1` are unchanged, and no row has the start of `s` as its offset. -/
theorem buildIndex_short_line (L1 L2 : List Bytes) (s : Bytes) (hs : s.length < 10)
    (hnl : ∀ l ∈ L1 ++ [s] ++ L2, '\n' ∉ l) :
    ∃ (msgs : List Msg) (A B : List Entry),
      buildIndex (some (fileOfLines L1)) true = some { messages := msgs, index := some A } ∧
      buildIndex (some (fileOfLines (L1 ++ L2))) true
        = some { messages := msgs, index := some (A ++ B) } ∧
      buildIndex (some (fileOfLines (L1 ++ [s] ++ L2))) true
        = some { messages := msgs,
                 index := some (A ++ B.map (fun e => (e.1, e.2 + ((s.length + 1 : Nat) : Int)))) } ∧
      (A ++ B.map (fun e => (e.1, e.2 + ((s.length + 1 : Nat) : Int)))).map (fun e => e.1)
        = (A ++ B).map (fun e => e.1) ∧
      fileOfLines (L1 ++ [s] ++ L2) = fileOfLines L1 ++ (s ++ '\n' :: fileOfLines L2) ∧
      (∀ e ∈ A, e.2 < ((fileOfLines L1).length : Int)) ∧
      (∀ e ∈ B, ((fileOfLines L1).length : Int) ≤ e.2) ∧
      (∀ e ∈ A ++ B.map (fun e => (e.1, e.2 + ((s.length + 1 : Nat) : Int))),
        e.2 ≠ ((fileOfLines L1).length : Int)) := by
  have hnl1 : ∀ l ∈ L1, '\n' ∉ l := fun l hl => hnl l (by simp [hl])
  have hnl2 : ∀ l ∈ L2, '\n' ∉ l := fun l hl => hnl l (by simp [hl])
  have hnl12 : ∀ l ∈ L1 ++ L2, '\n' ∉ l := by
    intro l hl
    rcases List.mem_append.mp hl with h | h
    · exact hnl1 l h
    · exact hnl2 l h
  have hA : ∀ e ∈ indexOfLines [] (withOffsets 0 L1), e.2 < ((fileOfLines L1).length : Int) := by
    intro e he
    have := (indexOfLines_offset_bounds he).2
    simpa using this
  have hB : ∀ e ∈ indexOfLines (cursorAfter [] (withOffsets 0 L1))
      (withOffsets (0 + (fileOfLines L1).length) L2), ((fileOfLines L1).length : Int) ≤ e.2 := by
    intro e he
    have := (indexOfLines_offset_bounds he).1
    simpa using this
  refine ⟨[.info "[INFO] Building index", .info "[INFO] Index built successfully"],
    indexOfLines [] (withOffsets 0 L1),
    indexOfLines (cursorAfter [] (withOffsets 0 L1)) (withOffsets (0 + (fileOfLines L1).length) L2),
    ?_, ?_, ?_, ?_, ?_, hA, hB, ?_⟩
  · rw [buildIndex_eq, linesWithOffsets, fileLines_fileOfLines _ hnl1]
  · rw [buildIndex_eq, linesWithOffsets, fileLines_fileOfLines _ hnl12, withOffsets_append,
      indexOfLines_append]
  · rw [buildIndex_eq, linesWithOffsets, fileLines_fileOfLines _ hnl, List.append_assoc,
      withOffsets_append, indexOfLines_append]
    have hshort : ¬ (10 ≤ s.length ∧ s.take 10 ≠ cursorAfter [] (withOffsets 0 L1)) :=
      fun h => absurd h.1 (by omega)
    have hp : 0 + (fileOfLines L1).length + s.length + 1
        = (0 + (fileOfLines L1).length) + (s.length + 1) := by omega
    rw [List.singleton_append, withOffsets, indexOfLines, if_neg hshort, hp, indexOfLines_shift]
  · simp [List.map_map, Function.comp_def]
  · rw [List.append_assoc, fileOfLines_append, List.singleton_append, fileOfLines_cons]
  · intro e he
    rcases List.mem_append.mp he with h | h
    · exact ne_of_lt (hA e h)
    · obtain ⟨b, hb, rfl⟩ := List.mem_map.mp h
      have := hB b hb
      show b.2 + ((s.length + 1 : Nat) : Int) ≠ _
      push_cast
      omega

theorem buildIndex_short_line_witness :
    "xx".toList.length < 10 ∧
    (∀ l ∈ ["2024-12-01 A".toList] ++ ["xx".toList] ++ ["2024-12-02 B".toList], '\n' ∉ l) ∧
    ∃ (msgs : List Msg) (A B : List Entry),
      buildIndex (some (fileOfLines ["2024-12-01 A".toList])) true
        = some { messages := msgs, index := some A } ∧
      buildIndex (some (fileOfLines (["2024-12-01 A".toList] ++ ["2024-12-02 B".toList]))) true
        = some { messages := msgs, index := some (A ++ B) } ∧
      buildIndex (some (fileOfLines
          (["2024-12-01 A".toList] ++ ["xx".toList] ++ ["2024-12-02 B".toList]))) true
        = some { messages := msgs,
                 index := some (A ++ B.map
                   (fun e => (e.1, e.2 + (("xx".toList.length + 1 : Nat) : Int)))) } ∧
      (A ++ B.map (fun e => (e.1, e.2 + (("xx".toList.length + 1 : Nat) : Int)))).map
          (fun e => e.1)
        = (A ++ B).map (fun e => e.1) ∧
      fileOfLines (["2024-12-01 A".toList] ++ ["xx".toList] ++ ["2024-12-02 B".toList])
        = fileOfLines ["2024-12-01 A".toList]
          ++ ("xx".toList ++ '\n' :: fileOfLines ["2024-12-02 B".toList]) ∧
      (∀ e ∈ A, e.2 < ((fileOfLines ["2024-12-01 A".toList]).length : Int)) ∧
      (∀ e ∈ B, ((fileOfLines ["2024-12-01 A".toList]).length : Int) ≤ e.2) ∧
      (∀ e ∈ A ++ B.map (fun e => (e.1, e.2 + (("xx".toList.length + 1 : Nat) : Int))),
        e.2 ≠ ((fileOfLines ["2024-12-01 A".toList]).length : Int)) :=
  ⟨by decide, by decide,
   buildIndex_short_line ["2024-12-01 A".toList] ["2024-12-02 B".toList] "xx".toList
     (by decide) (by decide)⟩

/-! ## What the extraction scan writes -/

theorem scanLines_through (date : Bytes) (endOffset : Int) (o : Nat) (s : Bytes)
    (post : List (Nat × Bytes)) (hend : endOffset = -1 ∨ (o : Int) < endOffset)
    (hs : s.length < 10) : ∀ (pre : List (Nat × Bytes)),
    (pre ++ (o, s) :: post).Pairwise (fun a b => a.1 < b.1) →
    (∀ q ∈ pre, ¬ (10 ≤ q.2.length ∧ q.2.take 10 ≠ date)) →
    scanLines date endOffset (pre ++ (o, s) :: post)
      = pre.map (fun q => q.2) ++ s :: scanLines date endOffset post := by
  intro pre
  induction pre with
  | nil =>
    intro _ _
    have h1 : ¬ (endOffset ≠ -1 ∧ endOffset ≤ (o : Int)) := by
      rintro ⟨h1, h2⟩
      rcases hend with h | h
      · exact h1 h
      · omega
    have h2 : ¬ (10 ≤ s.length ∧ s.take 10 ≠ date) := fun h => absurd h.1 (by omega)
    rw [List.nil_append, scanLines, if_neg h1, if_neg h2]
    rfl
  | cons q pre ih =>
    intro hpw hpre
    obtain ⟨hq, hrest⟩ := List.pairwise_cons.mp hpw
    have hlt : q.1 < o := hq (o, s) (by simp)
    have h1 : ¬ (endOffset ≠ -1 ∧ endOffset ≤ (q.1 : Int)) := by
      rintro ⟨h1, h2⟩
      rcases hend with h | h
      · exact h1 h
      · omega
    rw [List.cons_append, scanLines, if_neg h1, if_neg (hpre q (List.mem_cons_self _ _)),
      ih hrest (fun x hx => hpre x (List.mem_cons_of_mem _ hx))]
    rfl

theorem scanLines_take (date : Bytes) (endOffset : Int) : ∀ (L : List (Nat × Bytes)),
    ∃ k, scanLines date endOffset L = (L.take k).map (fun q => q.2) ∧
      (endOffset ≠ -1 → ∀ q ∈ L.take k, (q.1 : Int) < endOffset) ∧
      (∀ q ∈ L.take k, ¬ (10 ≤ q.2.length ∧ q.2.take 10 ≠ date)) := by
  intro L
  induction L with
  | nil => exact ⟨0, rfl, by simp, by simp⟩
  | cons q rest ih =>
    by_cases hend : endOffset ≠ -1 ∧ endOffset ≤ (q.1 : Int)
    · exact ⟨0, by rw [scanLines, if_pos hend]; rfl, by simp, by simp⟩
    · by_cases hd : 10 ≤ q.2.length ∧ q.2.take 10 ≠ date
      · exact ⟨0, by rw [scanLines, if_neg hend, if_pos hd]; rfl, by simp, by simp⟩
      · obtain ⟨k, hk, hlt, hok⟩ := ih
        refine ⟨k + 1, by rw [scanLines, if_neg hend, if_neg hd, hk]; rfl, ?_, ?_⟩
        · intro hne x hx
          rw [List.take_succ_cons] at hx
          rcases List.mem_cons.mp hx with rfl | hx
          · by_contra hge
            exact hend ⟨hne, by omega⟩
          · exact hlt hne x hx
        · intro x hx
          rw [List.take_succ_cons] at hx
          rcases List.mem_cons.mp hx with rfl | hx
          · exact hd
          · exact hok x hx

/-! ## Persistence of the index, non-contiguous dates, and the output as a run of the log -/

/-- Claim C17 (index persistence round trip).  For every log file in which no line has a comma
among its first 10 bytes and whose size fits a `std::streamoff`: the loader of
`extractLogsForDate`, run on the bytes `buildIndex` writes (one row `date,offset` and a newline
byte per entry), yields exactly the entries `buildIndex` emitted, in the same order. -/
theorem index_persistence_roundtrip (log : Bytes) (hsize : log.length ≤ 9223372036854775807)
    (hcomma : ∀ l ∈ fileLines log, ',' ∉ l.take 10) :
    ∃ (msgs : List Msg) (es : List Entry),
      buildIndex (some log) true = some { messages := msgs, index := some es } ∧
      loadIndex (indexBytes es) = some (.ok es) := by
  refine ⟨_, _, buildIndex_eq log, loadIndex_indexBytes ?_⟩
  intro e he
  obtain ⟨q, hq, heq, _⟩ := indexOfLines_offset_mem he
  have hline : q.2 ∈ fileLines log := by
    have := List.mem_map_of_mem (fun x => x.2) hq
    rwa [linesWithOffsets, withOffsets_map_snd] at this
  have hlt := (lines_from_offset hq).2
  subst heq
  refine ⟨hcomma _ hline, ?_, by simp, ?_⟩
  · exact fun hm => fileLines_no_newline _ _ hline (List.mem_of_mem_take hm)
  · show (q.1 : Int) ≤ 9223372036854775807
    omega

theorem index_persistence_roundtrip_witness :
    "2024-12-01 A\nxx\n2024-12-02 B".toList.length ≤ 9223372036854775807 ∧
    (∀ l ∈ fileLines "2024-12-01 A\nxx\n2024-12-02 B".toList, ',' ∉ l.take 10) ∧
    ∃ (msgs : List Msg) (es : List Entry),
      buildIndex (some "2024-12-01 A\nxx\n2024-12-02 B".toList) true
        = some { messages := msgs, index := some es } ∧
      loadIndex (indexBytes es) = some (.ok es) :=
  ⟨by decide, by decide,
   index_persistence_roundtrip "2024-12-01 A\nxx\n2024-12-02 B".toList (by decide) (by decide)⟩

/-- Claim C18 (non-contiguous dates lose data).  There is a log file, all of whose lines have at
least 10 bytes, with the date `d`, then another date, then `d` again: `buildIndex` emits two
rows with the date `d`, and `extractLogsForDate d` against that index writes the first block
of `d` only; the later line dated `d` is not in the output. -/
theorem noncontiguous_dates_lose_lines :
    ∃ (log d : Bytes) (es : List Entry) (written : List Bytes),
      (∀ l ∈ fileLines log, 10 ≤ l.length) ∧
      (fileLines log).map (fun l => l.take 10) = [d, "2024-12-02".toList, d] ∧
      d ≠ "2024-12-02".toList ∧
      buildIndex (some log) true = some
        { messages := [.info "[INFO] Building index", .info "[INFO] Index built successfully"],
          index := some es } ∧
      (es.filter (fun e => decide (e.1 = d))).length = 2 ∧
      extractLogsForDate d (some log) (some (indexBytes es)) true = some
        { messages := [.info "[INFO] Extracting logs", .info "[INFO] Logs written"],
          threw := none, createdOutputDir := true, openedLog := true,
          output := some written } ∧
      written = ["2024-12-01 A".toList] ∧
      "2024-12-01 C".toList ∈ fileLines log ∧ "2024-12-01 C".toList ∉ written := by
  refine ⟨"2024-12-01 A\n2024-12-02 B\n2024-12-01 C\n".toList, "2024-12-01".toList,
    [("2024-12-01".toList, 0), ("2024-12-02".toList, 13), ("2024-12-01".toList, 26)],
    ["2024-12-01 A".toList], ?_, ?_, ?_, ?_, ?_, ?_, rfl, ?_, ?_⟩ <;> decide

/-- Claim C19 (the output is a verbatim run of the log).  For every log file, every index and
every requested date for which the start offset found is the position at which a line `q` of
the log begins: the lines `extractLogsForDate` writes are the first `k` lines of the log from
`q` on, for some `k`, unchanged and in the original order; and nothing is written when `q` has
at least 10 bytes and does not begin with the requested date. -/
theorem extract_output_is_run_of_log (date log index : Bytes) (loaded : List Entry)
    (pre post : List (Nat × Bytes)) (q : Nat × Bytes)
    (hload : loadIndex index = some (.ok loaded))
    (hsplit : linesWithOffsets log = pre ++ q :: post)
    (hstart : (findOffsets date (sortByOffset loaded)).1 = (q.1 : Int)) :
    ∃ (lines : List Bytes) (k : Nat),
      extractLogsForDate date (some log) (some index) true = some
        { messages := [.info "[INFO] Extracting logs", .info "[INFO] Logs written"],
          threw := none, createdOutputDir := true, openedLog := true,
          output := some lines } ∧
      fileLines log = pre.map (fun x => x.2) ++ (q :: post).map (fun x => x.2) ∧
      lines = ((q :: post).map (fun x => x.2)).take k ∧
      lines <+: (q :: post).map (fun x => x.2) ∧
      (10 ≤ q.2.length ∧ q.2.take 10 ≠ date → lines = []) := by
  have hfound : (findOffsets date (sortByOffset loaded)).1 ≠ -1 := by
    rw [hstart]; omega
  have hfrom : withOffsets q.1 (fileLines (log.drop q.1)) = q :: post := by
    have := (withOffsets_split pre log 0 q post hsplit).2.1
    simpa using this
  obtain ⟨k, hk, _, _⟩ := scanLines_take date (findOffsets date (sortByOffset loaded)).2
    (q :: post)
  have hlines : fileLines log = pre.map (fun x => x.2) ++ (q :: post).map (fun x => x.2) := by
    have := congrArg (List.map (fun x : Nat × Bytes => x.2)) hsplit
    rwa [linesWithOffsets, withOffsets_map_snd, List.map_append] at this
  refine ⟨scanLines date (findOffsets date (sortByOffset loaded)).2 (q :: post), k, ?_, hlines,
    ?_, ?_, ?_⟩
  · rw [extractLogsForDate_written hload hfound, hstart, if_neg (by omega), Int.toNat_ofNat,
      hfrom]
  · rw [hk, List.map_take]
  · rw [hk, List.map_take]; exact List.take_prefix _ _
  · intro hd
    by_cases hend : (findOffsets date (sortByOffset loaded)).2 ≠ -1 ∧
        (findOffsets date (sortByOffset loaded)).2 ≤ (q.1 : Int)
    · rw [scanLines, if_pos hend]
    · rw [scanLines, if_neg hend, if_pos hd]

theorem extract_output_is_run_of_log_witness :
    loadIndex "2024-12-01,13\n".toList = some (.ok [("2024-12-01".toList, 13)]) ∧
    linesWithOffsets "2024-11-30 Z\n2024-12-01 A\n2024-12-02 B\n".toList
      = [(0, "2024-11-30 Z".toList)] ++ (13, "2024-12-01 A".toList)
          :: [(26, "2024-12-02 B".toList)] ∧
    ∃ (lines : List Bytes) (k : Nat),
      extractLogsForDate "2024-12-01".toList
          (some "2024-11-30 Z\n2024-12-01 A\n2024-12-02 B\n".toList)
          (some "2024-12-01,13\n".toList) true = some
        { messages := [.info "[INFO] Extracting logs", .info "[INFO] Logs written"],
          threw := none, createdOutputDir := true, openedLog := true,
          output := some lines } ∧
      fileLines "2024-11-30 Z\n2024-12-01 A\n2024-12-02 B\n".toList
        = [(0, "2024-11-30 Z".toList)].map (fun x => x.2)
          ++ ((13, "2024-12-01 A".toList) :: [(26, "2024-12-02 B".toList)]).map (fun x => x.2) ∧
      lines = (((13, "2024-12-01 A".toList) :: [(26, "2024-12-02 B".toList)]).map
        (fun x => x.2)).take k ∧
      lines <+: ((13, "2024-12-01 A".toList) :: [(26, "2024-12-02 B".toList)]).map
        (fun x => x.2) ∧
      (10 ≤ ((13, "2024-12-01 A".toList) : Nat × Bytes).2.length ∧
        ((13, "2024-12-01 A".toList) : Nat × Bytes).2.take 10 ≠ "2024-12-01".toList →
          lines = []) :=
  ⟨rfl, by decide,
   extract_output_is_run_of_log "2024-12-01".toList
     "2024-11-30 Z\n2024-12-01 A\n2024-12-02 B\n".toList "2024-12-01,13\n".toList
     [("2024-12-01".toList, 13)] [(0, "2024-11-30 Z".toList)] [(26, "2024-12-02 B".toList)]
     (13, "2024-12-01 A".toList) rfl (by decide) (by decide)⟩

/-! ## Every sort that meets the contract of `std::sort` -/

theorem sortByOffset_isSort : IsSortByOffset sortByOffset := by
  intro l
  haveI : IsTotal Entry (fun a b => a.2 ≤ b.2) := ⟨fun a b => le_total a.2 b.2⟩
  haveI : IsTrans Entry (fun a b => a.2 ≤ b.2) := ⟨fun _ _ _ h1 h2 => le_trans h1 h2⟩
  exact ⟨List.perm_insertionSort _ l, List.sorted_insertionSort _ l⟩

/-- On rows with pairwise distinct offsets every sort that meets the contract gives the same
sequence as `sortByOffset`. -/
theorem stdSort_eq_sortByOffset {stdSort : List Entry → List Entry} (hsort : IsSortByOffset stdSort)
    {l : List Entry} (hnodup : (l.map (fun e => e.2)).Nodup) : stdSort l = sortByOffset l := by
  obtain ⟨hp1, hs1⟩ := hsort l
  obtain ⟨hp2, hs2⟩ := sortByOffset_isSort l
  have hp : (stdSort l).Perm (sortByOffset l) := hp1.trans hp2.symm
  have hn1 : ((stdSort l).map (fun e => e.2)).Nodup := (hp1.map _).nodup_iff.mpr hnodup
  have hn2 : ((sortByOffset l).map (fun e => e.2)).Nodup := (hp2.map _).nodup_iff.mpr hnodup
  have strict : ∀ {l : List Entry}, l.Pairwise (fun a b => a.2 ≤ b.2) →
      (l.map (fun e => e.2)).Nodup → l.Sorted (fun a b => a.2 < b.2) := by
    intro l hs hn
    rw [List.Nodup, List.pairwise_map] at hn
    exact (hs.and hn).imp (fun h => lt_of_le_of_ne h.1 h.2)
  haveI : IsAntisymm Entry (fun a b => a.2 < b.2) :=
    ⟨fun a b h1 h2 => absurd h1 (not_lt_of_lt h2)⟩
  exact List.eq_of_perm_of_sorted hp (strict hs1 hn1) (strict hs2 hn2)

theorem extractLogsForDateWith_written (stdSort : List Entry → List Entry)
    {date log index : Bytes} {loaded : List Entry}
    (hload : loadIndex index = some (.ok loaded))
    (hfound : (findOffsets date (stdSort loaded)).1 ≠ -1) :
    extractLogsForDateWith stdSort date (some log) (some index) true = some
      { messages := [.info "[INFO] Extracting logs", .info "[INFO] Logs written"],
        threw := none, createdOutputDir := true, openedLog := true,
        output := some
          (if (findOffsets date (stdSort loaded)).1 < 0 then []
           else scanLines date (findOffsets date (stdSort loaded)).2
             (withOffsets (findOffsets date (stdSort loaded)).1.toNat
               (fileLines (log.drop (findOffsets date (stdSort loaded)).1.toNat)))) } := by
  simp only [extractLogsForDateWith, hload, hfound, if_false, Bool.not_true, Bool.false_eq_true,
    extractLines_eq, Option.map_some']

theorem extractLogsForDateWith_output (stdSort : List Entry → List Entry) {date : Bytes}
    {logFile indexFile : Option Bytes} {writable : Bool} {o : ExtractOutcome}
    {lines : List Bytes}
    (h : extractLogsForDateWith stdSort date logFile indexFile writable = some o)
    (hout : o.output = some lines) :
    ∃ log index loaded, logFile = some log ∧ indexFile = some index ∧ writable = true ∧
      loadIndex index = some (.ok loaded) ∧ (findOffsets date (stdSort loaded)).1 ≠ -1 := by
  cases indexFile with
  | none =>
    simp only [extractLogsForDateWith, Option.some.injEq] at h
    subst h; simp at hout
  | some index =>
    cases hl : loadLines (fileLines index) [] with
    | error e =>
      simp only [extractLogsForDateWith, loadIndex_eq, hl, Option.some.injEq] at h
      subst h; simp at hout
    | ok loaded =>
      by_cases hfound : (findOffsets date (stdSort loaded)).1 = -1
      · simp only [extractLogsForDateWith, loadIndex_eq, hl, hfound, if_true,
          Option.some.injEq] at h
        subst h; simp at hout
      · cases logFile with
        | none =>
          simp only [extractLogsForDateWith, loadIndex_eq, hl, hfound, if_false,
            Option.some.injEq] at h
          subst h; simp at hout
        | some log =>
          cases writable with
          | false =>
            simp only [extractLogsForDateWith, loadIndex_eq, hl, hfound, if_false,
              Bool.not_false, if_true, Option.some.injEq] at h
            subst h; simp at hout
          | true =>
            exact ⟨log, index, loaded, rfl, rfl, rfl, by rw [loadIndex_eq, hl], hfound⟩

theorem extractLogsForDateWith_not_found_iff (stdSort : List Entry → List Entry) {date : Bytes}
    {logFile : Option Bytes} {index : Bytes} {writable : Bool} {loaded : List Entry}
    (hload : loadIndex index = some (.ok loaded)) :
    extractLogsForDateWith stdSort date logFile (some index) writable = some
        { messages := [.info "[INFO] Extracting logs", .info "[INFO] No logs found for date"],
          threw := none, createdOutputDir := false, openedLog := false, output := none }
      ↔ (findOffsets date (stdSort loaded)).1 = -1 := by
  constructor
  · intro h
    by_contra hfound
    cases logFile with
    | none =>
      simp only [extractLogsForDateWith, hload, hfound, if_false, Option.some.injEq] at h
      exact absurd (congrArg ExtractOutcome.createdOutputDir h) (by simp)
    | some log =>
      cases writable with
      | false =>
        simp only [extractLogsForDateWith, hload, hfound, if_false, Bool.not_false, if_true,
          Option.some.injEq] at h
        exact absurd (congrArg ExtractOutcome.createdOutputDir h) (by simp)
      | true =>
        rw [extractLogsForDateWith_written stdSort hload hfound, Option.some.injEq] at h
        exact absurd (congrArg ExtractOutcome.createdOutputDir h) (by simp)
  · intro h
    simp only [extractLogsForDateWith, hload, h, if_true]

/-! ## Missing date -/

/-- Claim C7, as the code behaves (missing date).  For every index file that the loader reads
without an exception of `std::stoll`, whatever order `std::sort` gives its rows, and every
requested date that is the date of none of its rows, `extractLogsForDate` returns normally
after the informational message "No logs found for date": nothing is written to `std::cerr`,
no exception is thrown, `create_directories` is not called, the log file is not opened and no
output artifact is created, whatever the state of the log file and of the output file. -/
theorem extract_missing_date (stdSort : List Entry → List Entry) (hsort : IsSortByOffset stdSort)
    (date : Bytes) (logFile : Option Bytes) (index : Bytes)
    (writable : Bool) (loaded : List Entry)
    (hload : loadIndex index = some (.ok loaded)) (hmiss : ∀ e ∈ loaded, e.1 ≠ date) :
    extractLogsForDateWith stdSort date logFile (some index) writable = some
      { messages := [.info "[INFO] Extracting logs", .info "[INFO] No logs found for date"],
        threw := none, createdOutputDir := false, openedLog := false, output := none } := by
  have hfind : findOffsets date (stdSort loaded) = (-1, -1) :=
    findOffsets_of_not_mem (fun e he => hmiss e ((hsort loaded).1.mem_iff.mp he))
  rw [extractLogsForDateWith_not_found_iff stdSort hload, hfind]

theorem extract_missing_date_witness :
    IsSortByOffset sortByOffset ∧
    loadIndex "2024-12-01,0\n2024-12-02,26\n".toList
      = some (.ok [("2024-12-01".toList, 0), ("2024-12-02".toList, 26)]) ∧
    (∀ e ∈ [("2024-12-01".toList, (0 : Int)), ("2024-12-02".toList, 26)],
      e.1 ≠ "2024-12-03".toList) ∧
    extractLogsForDateWith sortByOffset "2024-12-03".toList none
        (some "2024-12-01,0\n2024-12-02,26\n".toList) false = some
      { messages := [.info "[INFO] Extracting logs", .info "[INFO] No logs found for date"],
        threw := none, createdOutputDir := false, openedLog := false, output := none } :=
  ⟨sortByOffset_isSort, rfl, by decide,
   extract_missing_date sortByOffset sortByOffset_isSort "2024-12-03".toList none
     "2024-12-01,0\n2024-12-02,26\n".toList false
     [("2024-12-01".toList, 0), ("2024-12-02".toList, 26)] rfl (by decide)⟩

/-- Claim C7, counterexample.  The index file holds the one line `2024-12-01,abc`, so the
requested date `2024-12-03` is the date of no row of it; `std::stoll` throws
`std::invalid_argument` on `abc` (line 146) and `extractLogsForDate` does not return normally:
the exception leaves it, with no "No logs found" message. -/
theorem extract_missing_date_throws_on_bad_offset :
    fileLines "2024-12-01,abc\n".toList = ["2024-12-01,abc".toList] ∧
    "2024-12-01".toList ≠ "2024-12-03".toList ∧
    extractLogsForDate "2024-12-03".toList (some "2024-12-01 A\n".toList)
        (some "2024-12-01,abc\n".toList) true = some
      { messages := [.info "[INFO] Extracting logs"], threw := some .invalid_argument,
        createdOutputDir := false, openedLog := false, output := none } := by
  refine ⟨by decide, by decide, by decide⟩
/-! ## Range lookup in the sorted rows -/

/-- Claim C15 (short lines in the extractor).  For every log, every index and requested date,
whatever order `std::sort` gives the rows, with `startOffset` found and not negative: let the
lines read from `startOffset` on be `pre`, then a line `s` shorter than 10 bytes that begins
before a bounded `endOffset`, then `post`, where no line of `pre` stops the scan by its date.
Then `extractLogsForDate` writes the lines of `pre`, writes `s` unchanged, and goes on scanning
`post`. -/
theorem extract_short_line_written (stdSort : List Entry → List Entry)
    (date log index : Bytes) (loaded : List Entry)
    (startOffset endOffset : Int) (pre post : List (Nat × Bytes)) (o : Nat) (s : Bytes)
    (hload : loadIndex index = some (.ok loaded))
    (hfind : findOffsets date (stdSort loaded) = (startOffset, endOffset))
    (hstart : 0 ≤ startOffset)
    (hlines : withOffsets startOffset.toNat (fileLines (log.drop startOffset.toNat))
      = pre ++ (o, s) :: post)
    (hpre : ∀ q ∈ pre, ¬ (10 ≤ q.2.length ∧ q.2.take 10 ≠ date))
    (hend : endOffset = -1 ∨ (o : Int) < endOffset)
    (hs : s.length < 10) :
    extractLogsForDateWith stdSort date (some log) (some index) true = some
      { messages := [.info "[INFO] Extracting logs", .info "[INFO] Logs written"],
        threw := none, createdOutputDir := true, openedLog := true,
        output := some (pre.map (fun q => q.2) ++ s :: scanLines date endOffset post) } := by
  have hfound : (findOffsets date (stdSort loaded)).1 ≠ -1 := by
    rw [hfind]; show startOffset ≠ -1; omega
  have hpw : (pre ++ (o, s) :: post).Pairwise (fun a b => a.1 < b.1) := by
    rw [← hlines]; exact withOffsets_pairwise _ _
  rw [extractLogsForDateWith_written stdSort hload hfound, hfind]
  dsimp only
  rw [if_neg (by omega), hlines, scanLines_through date endOffset o s post hend hs pre hpw hpre]

theorem extract_short_line_written_witness :
    loadIndex "2024-12-01,0\n2024-12-02,29\n".toList
      = some (.ok [("2024-12-01".toList, 0), ("2024-12-02".toList, 29)]) ∧
    findOffsets "2024-12-01".toList
        (sortByOffset [("2024-12-01".toList, 0), ("2024-12-02".toList, 29)]) = (0, 29) ∧
    withOffsets (0 : Int).toNat
        (fileLines ("2024-12-01 A\nxx\n2024-12-01 B\n2024-12-02 C\n".toList.drop (0 : Int).toNat))
      = [(0, "2024-12-01 A".toList)] ++ (13, "xx".toList)
          :: [(16, "2024-12-01 B".toList), (29, "2024-12-02 C".toList)] ∧
    extractLogsForDateWith sortByOffset "2024-12-01".toList
        (some "2024-12-01 A\nxx\n2024-12-01 B\n2024-12-02 C\n".toList)
        (some "2024-12-01,0\n2024-12-02,29\n".toList) true = some
      { messages := [.info "[INFO] Extracting logs", .info "[INFO] Logs written"],
        threw := none, createdOutputDir := true, openedLog := true,
        output := some ([(0, "2024-12-01 A".toList)].map (fun q => q.2) ++ "xx".toList
          :: scanLines "2024-12-01".toList 29
              [(16, "2024-12-01 B".toList), (29, "2024-12-02 C".toList)]) } :=
  ⟨rfl, by decide, by decide,
   extract_short_line_written sortByOffset "2024-12-01".toList
     "2024-12-01 A\nxx\n2024-12-01 B\n2024-12-02 C\n".toList
     "2024-12-01,0\n2024-12-02,29\n".toList
     [("2024-12-01".toList, 0), ("2024-12-02".toList, 29)] 0 29
     [(0, "2024-12-01 A".toList)] [(16, "2024-12-01 B".toList), (29, "2024-12-02 C".toList)]
     13 "xx".toList rfl (by decide) (by decide) (by decide) (by decide) (Or.inr (by decide))
     (by decide)⟩

/-- Claim C16 (end-offset bound).  For every log file, every index file and every requested date,
whatever order `std::sort` gives the rows: whenever `extractLogsForDate` writes lines they are
the first `k` lines read from `startOffset` on, for some `k`, and when `endOffset` is bounded
(not `-1`) every one of them begins at a byte position below `endOffset`. -/
theorem extract_end_offset_bound (stdSort : List Entry → List Entry)
    (date : Bytes) (logFile indexFile : Option Bytes)
    (writable : Bool) (o : ExtractOutcome) (lines : List Bytes)
    (h : extractLogsForDateWith stdSort date logFile indexFile writable = some o)
    (hout : o.output = some lines) :
    ∃ log index loaded, logFile = some log ∧ indexFile = some index ∧
      loadIndex index = some (.ok loaded) ∧
      ∃ k, lines = ((withOffsets (findOffsets date (stdSort loaded)).1.toNat
          (fileLines (log.drop (findOffsets date (stdSort loaded)).1.toNat))).take k).map
            (fun q => q.2) ∧
        ((findOffsets date (stdSort loaded)).2 ≠ -1 →
          ∀ q ∈ (withOffsets (findOffsets date (stdSort loaded)).1.toNat
              (fileLines (log.drop (findOffsets date (stdSort loaded)).1.toNat))).take k,
            (q.1 : Int) < (findOffsets date (stdSort loaded)).2) := by
  obtain ⟨log, index, loaded, rfl, rfl, rfl, hload, hfound⟩ :=
    extractLogsForDateWith_output stdSort h hout
  rw [extractLogsForDateWith_written stdSort hload hfound, Option.some.injEq] at h
  subst h
  simp only [Option.some.injEq] at hout
  refine ⟨log, index, loaded, rfl, rfl, hload, ?_⟩
  by_cases hneg : (findOffsets date (stdSort loaded)).1 < 0
  · rw [if_pos hneg] at hout
    exact ⟨0, by rw [← hout]; rfl, by simp⟩
  · rw [if_neg hneg] at hout
    obtain ⟨k, hk, hlt, _⟩ := scanLines_take date (findOffsets date (stdSort loaded)).2
      (withOffsets (findOffsets date (stdSort loaded)).1.toNat
        (fileLines (log.drop (findOffsets date (stdSort loaded)).1.toNat)))
    exact ⟨k, by rw [← hout, hk], hlt⟩

theorem extract_end_offset_bound_witness :
    extractLogsForDateWith sortByOffset "2024-12-01".toList
        (some "2024-12-01 A\n2024-12-01 B\n2024-12-01 C\n".toList)
        (some "2024-12-01,0\n2024-12-02,13\n".toList) true
      = some { messages := [.info "[INFO] Extracting logs", .info "[INFO] Logs written"],
               threw := none, createdOutputDir := true, openedLog := true,
               output := some ["2024-12-01 A".toList] } ∧
    ∃ log index loaded,
      some "2024-12-01 A\n2024-12-01 B\n2024-12-01 C\n".toList = some log ∧
      some "2024-12-01,0\n2024-12-02,13\n".toList = some index ∧
      loadIndex index = some (.ok loaded) ∧
      ∃ k, ["2024-12-01 A".toList]
          = ((withOffsets (findOffsets "2024-12-01".toList (sortByOffset loaded)).1.toNat
              (fileLines (log.drop
                (findOffsets "2024-12-01".toList (sortByOffset loaded)).1.toNat))).take k).map
            (fun q => q.2) ∧
        ((findOffsets "2024-12-01".toList (sortByOffset loaded)).2 ≠ -1 →
          ∀ q ∈ (withOffsets (findOffsets "2024-12-01".toList (sortByOffset loaded)).1.toNat
              (fileLines (log.drop
                (findOffsets "2024-12-01".toList (sortByOffset loaded)).1.toNat))).take k,
            (q.1 : Int) < (findOffsets "2024-12-01".toList (sortByOffset loaded)).2) :=
  ⟨by decide,
   extract_end_offset_bound sortByOffset "2024-12-01".toList
     (some "2024-12-01 A\n2024-12-01 B\n2024-12-01 C\n".toList)
     (some "2024-12-01,0\n2024-12-02,13\n".toList) true
     { messages := [.info "[INFO] Extracting logs", .info "[INFO] Logs written"],
       threw := none, createdOutputDir := true, openedLog := true,
       output := some ["2024-12-01 A".toList] }
     ["2024-12-01 A".toList] (by decide) rfl⟩

/-! ## Exit status of `main` when a file cannot be opened -/

/-- Claim C10, as the code behaves (exit status).  `buildIndex` and `extractLogsForDate` return
nothing, so `main` cannot see an open failure.  Every invocation `--build-index L I` returns
`EXIT_SUCCESS`; when the log file cannot be opened, and when the index file cannot be opened
for writing, `buildIndex` writes its `[ERROR]` message to `std::cerr`, writes no index, and
`main` still returns `EXIT_SUCCESS`.  Every invocation `--date D L I` whose index file cannot
be opened does the same: `[ERROR]` on `std::cerr`, nothing written, `EXIT_SUCCESS`. -/
theorem main_exit_status_on_open_failure :
    (∀ (fs : FileSystem) (prog L I : String) (more : List String),
        ∃ o, main fs (prog :: "--build-index" :: L :: I :: more) = some
          { exit := some EXIT_SUCCESS, usage := [], call := .buildIndex L I o }) ∧
    (∀ (fs : FileSystem) (prog L I : String) (more : List String), fs.readable L = none →
        main fs (prog :: "--build-index" :: L :: I :: more) = some
          { exit := some EXIT_SUCCESS, usage := [],
            call := .buildIndex L I
              { messages := [.info "[INFO] Building index",
                             .error "[ERROR] Could not open log file"],
                index := none } }) ∧
    (∀ (fs : FileSystem) (prog L I : String) (more : List String) (log : Bytes),
        fs.readable L = some log → fs.writable I = false →
        main fs (prog :: "--build-index" :: L :: I :: more) = some
          { exit := some EXIT_SUCCESS, usage := [],
            call := .buildIndex L I
              { messages := [.info "[INFO] Building index",
                             .error "[ERROR] Could not open index file for writing"],
                index := none } }) ∧
    (∀ (fs : FileSystem) (prog D L I : String) (more : List String), fs.readable I = none →
        main fs (prog :: "--date" :: D :: L :: I :: more) = some
          { exit := some EXIT_SUCCESS, usage := [],
            call := .extractLogsForDate D L I
              { messages := [.info "[INFO] Extracting logs",
                             .error "[ERROR] Could not open index file"],
                threw := none, createdOutputDir := false, openedLog := false,
                output := none } }) := by
  refine ⟨?_, ?_, ?_, ?_⟩
  · intro fs prog L I more
    obtain ⟨o, ho⟩ := buildIndex_isSome (fs.readable L) (fs.writable I)
    refine ⟨o, ?_⟩
    simp only [main, List.length_cons, List.getD_cons_succ, List.getD_cons_zero, if_true, ho,
      Option.map_some']
    rw [if_neg (by omega), if_neg (by omega)]
  · intro fs prog L I more hL
    simp only [main, List.length_cons, List.getD_cons_succ, List.getD_cons_zero, if_true, hL,
      buildIndex, Option.map_some']
    rw [if_neg (by omega), if_neg (by omega)]
  · intro fs prog L I more log hL hI
    simp only [main, List.length_cons, List.getD_cons_succ, List.getD_cons_zero, if_true, hL, hI,
      buildIndex, Bool.not_false, Option.map_some']
    rw [if_neg (by omega), if_neg (by omega)]
  · intro fs prog D L I more hI
    simp [main, hI, extractLogsForDate, extractLogsForDateWith]
    rw [if_neg (by omega), if_neg (by omega)]

theorem main_exit_status_on_open_failure_witness :
    (∃ o, main { readable := fun _ => none, writable := fun _ => false }
        ["extract_logs", "--build-index", "test_logs.log", "log_index.txt"] = some
          { exit := some EXIT_SUCCESS, usage := [],
            call := .buildIndex "test_logs.log" "log_index.txt" o }) ∧
    main { readable := fun _ => none, writable := fun _ => false }
        ["extract_logs", "--build-index", "test_logs.log", "log_index.txt"] = some
      { exit := some EXIT_SUCCESS, usage := [],
        call := .buildIndex "test_logs.log" "log_index.txt"
          { messages := [.info "[INFO] Building index",
                         .error "[ERROR] Could not open log file"],
            index := none } } ∧
    main { readable := fun _ => some "2024-12-01 A\n".toList, writable := fun _ => false }
        ["extract_logs", "--build-index", "test_logs.log", "log_index.txt"] = some
      { exit := some EXIT_SUCCESS, usage := [],
        call := .buildIndex "test_logs.log" "log_index.txt"
          { messages := [.info "[INFO] Building index",
                         .error "[ERROR] Could not open index file for writing"],
            index := none } } ∧
    main { readable := fun _ => none, writable := fun _ => false }
        ["extract_logs", "--date", "2024-12-01", "test_logs.log", "log_index.txt"] = some
      { exit := some EXIT_SUCCESS, usage := [],
        call := .extractLogsForDate "2024-12-01" "test_logs.log" "log_index.txt"
          { messages := [.info "[INFO] Extracting logs",
                         .error "[ERROR] Could not open index file"],
            threw := none, createdOutputDir := false, openedLog := false, output := none } } :=
  ⟨main_exit_status_on_open_failure.1 _ _ _ _ _,
   main_exit_status_on_open_failure.2.1 _ _ _ _ _ rfl,
   main_exit_status_on_open_failure.2.2.1 _ _ _ _ _ "2024-12-01 A\n".toList rfl rfl,
   main_exit_status_on_open_failure.2.2.2 _ _ _ _ _ _ rfl⟩

end ExtractLogs
